import Mathlib

/-!
Shallow embedding of the nested-comment subsystem of the cdn-blogger
repository: the tree assembler (`buildCommentTree`, `flattenCommentTree`,
`limitTreeDepth` from `lib/schemaUtils.ts` and the comment service), the
content sanitizer wrapper (`src/utils/sanitize.ts`), the comment service
state machine (`createComment`, `softDeleteComment`,
`getCommentsForPost`), the moderation service (`flagComment`,
`getModerationQueue`) and the database triggers from the SQL migrations
(`update_comment_path`, `increment_reply_count`,
`update_comment_flags_count`).

Conventions of the embedding:
* identifiers (UUIDs) are `String`s; timestamps are `Nat`s ordered like
  the ISO strings / `timestamptz` values they stand for;
* the datastore is a `DBState` record of row lists in insertion order;
  a supabase `.single()` lookup by primary key is a `List.find?`
  (comment / post ids are unique in the real database: the uniqueness
  hypotheses appear explicitly on the theorems);
* supabase `.order(...)` is a stable sort (`List.insertionSort` with
  the order's non-strict comparison) and `.range(a, b)` keeps rows
  `a .. b` inclusive (`drop a`, `take (b+1-a)`);
* the external `sanitize-html` library is an uninterpreted function
  `san : String → String` passed to the operations that use it;
* JavaScript truthiness tests on optional strings/numbers
  (`if (input.parent_id)`, `if (limit)`) are modelled by the matching
  tests on `Option` values, including the falsiness of `""` and `0`.
-/

-- ============================================================================
-- Data model (lib/schemaUtils.ts types, comments table of the migration)
-- ============================================================================

/-- Moderation lifecycle state of a comment (`ModerationStatus` in
`lib/schemaUtils.ts`, the `moderation_status` CHECK constraint in SQL). -/
inductive ModerationStatus where
  | pending
  | approved
  | flagged
  | rejected
  deriving DecidableEq, Repr, BEq

/-- A row of the `comments` table (the `Comment` interface in
`lib/schemaUtils.ts`). -/
structure Comment where
  id : String
  post_id : String
  parent_id : Option String
  path : List String
  content : String
  sanitized_content : Option String := none
  sanitizer_version : Option String := none
  author_name : String
  author_email : Option String := none
  created_by : Option String := none
  moderation_status : ModerationStatus := .pending
  flags_count : Nat := 0
  moderation_notes : Option String := none
  is_deleted : Bool := false
  reply_count : Nat := 0
  created_at : Nat := 0
  updated_at : Nat := 0
  deleted_at : Option Nat := none
  deriving DecidableEq, Repr

instance : Inhabited Comment :=
  ⟨{ id := "", post_id := "", parent_id := none, path := [], content := "",
     author_name := "" }⟩

/-- A row of the `comment_flags` table (the `CommentFlag` interface in
`lib/services/moderationService.ts`). -/
structure CommentFlag where
  id : String
  comment_id : String
  flagged_by : String
  reason : Option String := none
  created_at : Nat := 0
  deriving DecidableEq, Repr

/-- A comment annotated with its depth and children
(`CommentWithDepth` in `lib/schemaUtils.ts`). -/
inductive CommentWithDepth where
  | node (comment : Comment) (depth : Nat) (children : List CommentWithDepth)
  deriving Inhabited

/-- Underlying comment of a tree node. -/
def CommentWithDepth.comment : CommentWithDepth → Comment
  | .node c _ _ => c

/-- Depth annotation of a tree node. -/
def CommentWithDepth.depth : CommentWithDepth → Nat
  | .node _ d _ => d

/-- Children list of a tree node. -/
def CommentWithDepth.children : CommentWithDepth → List CommentWithDepth
  | .node _ _ ts => ts

-- ============================================================================
-- Tree assembler (buildCommentTree / flattenCommentTree, lib/schemaUtils.ts)
-- ============================================================================

/-- The entry the JavaScript `Map` built in the first pass of
`buildCommentTree` holds for id `i`: `Map.set` overwrites, so the data is
the last occurrence of `i` in the flat list. -/
def dataOf (xs : List Comment) (i : String) : Comment :=
  (xs.reverse.find? (fun c => c.id = i)).getD default

/-- All comments of the flat list whose `parent_id` is `i`: these are the
occurrences pushed into node `i`'s children list by the second pass of
`buildCommentTree`, in flat-list order. -/
def childData (xs : List Comment) (i : String) : List Comment :=
  xs.filter (fun d => d.parent_id = some i)

/-- The tree node `buildCommentTree` leaves in the map for id `i`: its
data, `depth = path.length`, and the children pushed by the second pass.
The TypeScript original ties this structure by in-place mutation of shared
nodes; `fuel` makes the unfolding a total function, and is never exhausted
on the parts reachable from the roots (callers pass the list length, which
the fuel-stability lemmas show is enough). -/
def buildNodeF (xs : List Comment) : Nat → String → CommentWithDepth
  | 0, i => .node (dataOf xs i) (dataOf xs i).path.length []
  | fuel + 1, i =>
      .node (dataOf xs i) (dataOf xs i).path.length
        ((childData xs i).map (fun d => buildNodeF xs fuel d.id))

/-- `buildCommentTree` of `lib/schemaUtils.ts`: nodes with null
`parent_id` become roots in the order encountered; every other comment is
attached to its parent's children list when the parent id is present in
the map, and is silently dropped (an orphan) otherwise. -/
def buildCommentTree (xs : List Comment) : List CommentWithDepth :=
  (xs.filter (fun c => c.parent_id = none)).map
    (fun c => buildNodeF xs xs.length c.id)

/-- `flattenCommentTree` of `lib/schemaUtils.ts`: pre-order traversal,
each node before its children, children in stored order. -/
def flattenCommentTree : List CommentWithDepth → List CommentWithDepth
  | [] => []
  | t :: rest => t :: (flattenCommentTree t.children ++ flattenCommentTree rest)
termination_by ts => sizeOf ts
decreasing_by all_goals (cases t; simp [CommentWithDepth.children]; try omega)

/-- Modelled from the spec: the pre-order traversal of the reachable
subset of a flat comment list ("`flattenTree(buildTree(xs))` is a
permutation-stable pre-order traversal of `xs`'s reachable subset
(orphans excluded)"): visit a comment before its children, children in
their stored order, starting from the comments with null `parent_id`.
`fuel` is the recursion allowance, as in `buildNodeF`. -/
def preorderVisitSpec (xs : List Comment) : Nat → Comment → List Comment
  | 0, c => [c]
  | fuel + 1, c =>
      c :: (childData xs c.id).flatMap (fun d => preorderVisitSpec xs fuel d)

/-- Modelled from the spec: pre-order traversal of the reachable subset
of `xs`, orphans excluded. -/
def preorderReachableSpec (xs : List Comment) : List Comment :=
  (xs.filter (fun c => c.parent_id = none)).flatMap
    (fun c => preorderVisitSpec xs xs.length c)

-- ============================================================================
-- Depth limiting (limitTreeDepth, comment service part of the source)
-- ============================================================================

/-- `limitTreeDepth` of the comment service: at `currentDepth ≥ maxDepth`
every node keeps its data but its children array is forced empty;
shallower levels keep recursing. Depths are `Int` because the TypeScript
arguments are `number`s; the service calls this with `currentDepth = 1`. -/
def limitTreeDepth : List CommentWithDepth → Int → Int → List CommentWithDepth
  | [], _, _ => []
  | t :: rest, maxDepth, currentDepth =>
      (if maxDepth ≤ currentDepth then
        .node t.comment t.depth []
      else
        .node t.comment t.depth (limitTreeDepth t.children maxDepth (currentDepth + 1)))
      :: limitTreeDepth rest maxDepth currentDepth
termination_by ts _ _ => sizeOf ts
decreasing_by all_goals (cases t; simp [CommentWithDepth.children]; try omega)

/-- Proof-side description of depth limiting: `cutForest k ts` keeps `k`
more levels of children below the current one. `limitTreeDepth` is shown
to equal `cutForest ((maxDepth - currentDepth).toNat)`. -/
def cutForest : Nat → List CommentWithDepth → List CommentWithDepth
  | _, [] => []
  | 0, t :: rest => .node t.comment t.depth [] :: cutForest 0 rest
  | k + 1, t :: rest =>
      .node t.comment t.depth (cutForest k t.children) :: cutForest (k + 1) rest
termination_by _ ts => sizeOf ts
decreasing_by all_goals (cases t; simp [CommentWithDepth.children]; try omega)

/-- The nodes sitting at level `ℓ` of a forest, roots being level 1
(the level counting of `limitTreeDepth`). -/
def nodesAtLevel : Nat → List CommentWithDepth → List CommentWithDepth
  | 0, _ => []
  | 1, ts => ts
  | k + 2, ts => nodesAtLevel (k + 1) (ts.flatMap (fun t => t.children))

-- ============================================================================
-- Content sanitizer (src/utils/sanitize.ts)
-- ============================================================================

/-- JavaScript `String.prototype.trim`: strip leading and trailing
whitespace. (Defined on the character list so that proofs can evaluate
it; Lean's own `String.trim` is well-founded recursion over byte
positions, which the kernel cannot unfold.) -/
def jsTrim (s : String) : String :=
  ⟨((s.data.dropWhile Char.isWhitespace).reverse.dropWhile
      Char.isWhitespace).reverse⟩

/-- JavaScript `substring(0, n)`. -/
def jsTake (s : String) (n : Nat) : String :=
  ⟨s.data.take n⟩

/-- Maximum content length from `CONTENT_POLICY.MAX_LENGTH`. -/
def CONTENT_POLICY_MAX_LENGTH : Nat := 10000

/-- Sanitizer revision tag (`SANITIZER_VERSION`). -/
def SANITIZER_VERSION : String := "1.0.0"

/-- Result of `sanitizeCommentContent` (`SanitizationResult`). -/
structure SanitizationResult where
  sanitized : String
  original : String
  version : String
  isModified : Bool
  deriving DecidableEq, Repr

/-- Result shape of `validateCommentContent`. -/
structure ValidationResult where
  valid : Bool
  error : Option String := none
  deriving DecidableEq, Repr

/-- `validateCommentContent` of `src/utils/sanitize.ts`: empty or
non-string content is rejected, then the trimmed content must be nonempty
and at most `CONTENT_POLICY.MAX_LENGTH` characters. (`!content` is only
true for the empty string once `content` is known to be a string.) -/
def validateCommentContent (content : String) : ValidationResult :=
  if content = "" then
    ⟨false, some "Content must be a non-empty string"⟩
  else if (jsTrim content).length = 0 then
    ⟨false, some "Content cannot be empty"⟩
  else if CONTENT_POLICY_MAX_LENGTH < (jsTrim content).length then
    ⟨false, some ("Content exceeds maximum length of " ++
      toString CONTENT_POLICY_MAX_LENGTH ++ " characters")⟩
  else
    ⟨true, none⟩

/-- `sanitizeCommentContent` of `src/utils/sanitize.ts`: trims, truncates
to the maximum length, and runs the external `sanitize-html` library —
which is outside this repository and enters the model as the
uninterpreted function `san`. -/
def sanitizeCommentContent (san : String → String) (content : String) :
    SanitizationResult :=
  let original := content
  let t₀ := jsTrim content
  let t := if CONTENT_POLICY_MAX_LENGTH < t₀.length then
    jsTake t₀ CONTENT_POLICY_MAX_LENGTH else t₀
  let sanitized := san t
  ⟨sanitized, original, SANITIZER_VERSION, sanitized ≠ original⟩

/-- `processCommentContent` of `src/utils/sanitize.ts`: validate, then
sanitize; on a validation failure the error message is surfaced. -/
def processCommentContent (san : String → String) (content : String) :
    Except String SanitizationResult :=
  let v := validateCommentContent content
  if v.valid then .ok (sanitizeCommentContent san content)
  else .error (v.error.getD "Invalid content")

-- ============================================================================
-- Datastore state and service error shape
-- ============================================================================

/-- Error value returned by the service layers (`CommentServiceError`;
`details` is dropped since it only carries the storage error object). -/
structure CommentServiceError where
  code : String
  message : String
  deriving DecidableEq, Repr

/-- The moderation service error shape (`ModerationServiceError`) is
identical to the comment service one. -/
abbrev ModerationServiceError := CommentServiceError

/-- The shared datastore: `posts` (only ids are relevant here),
`comments` and `comment_flags` rows in insertion order. -/
structure DBState where
  posts : List String := []
  comments : List Comment := []
  flags : List CommentFlag := []
  deriving DecidableEq, Repr

/-- JavaScript truthiness of an optional string (`""`, `null` and
`undefined` are falsy). -/
def jsTruthyStr : Option String → Bool
  | none => false
  | some s => s ≠ ""

/-- JavaScript truthiness of an optional number (`0`, `null` and
`undefined` are falsy). -/
def jsTruthyNat : Option Nat → Bool
  | none => false
  | some n => n ≠ 0

/-- `input.parent_id || null` / `input.reason || null`. -/
def jsOrNull (o : Option String) : Option String :=
  if jsTruthyStr o then o else none

-- ============================================================================
-- Comment service (createComment / softDeleteComment, with the SQL
-- triggers update_comment_path and increment_reply_count inlined at the
-- insert they fire on)
-- ============================================================================

/-- Input of `createComment` (`CreateCommentInput`). -/
structure CreateCommentInput where
  post_id : String
  parent_id : Option String := none
  content : String
  author_name : String
  author_email : Option String := none
  created_by : Option String := none

/-- `createComment` of the comment service combined with the database
insert triggers: validation via `processCommentContent`, author-name
check, post existence, parent existence and same-post checks; on insert
the `update_comment_path` trigger sets `path` (own id for a top-level
comment, parent path plus own id otherwise) and the
`increment_reply_count` trigger bumps the parent's `reply_count`.
`newId` is the generated row id and `now` the insertion timestamp. -/
def createComment (san : String → String) (s : DBState)
    (input : CreateCommentInput) (newId : String) (now : Nat) :
    Except CommentServiceError Comment × DBState :=
  match processCommentContent san input.content with
  | .error msg => (.error ⟨"INVALID_INPUT", msg⟩, s)
  | .ok sres =>
    if jsTrim input.author_name = "" then
      (.error ⟨"INVALID_INPUT", "Author name is required"⟩, s)
    else if !(s.posts.contains input.post_id) then
      (.error ⟨"POST_NOT_FOUND", "Post does not exist"⟩, s)
    else
      match jsOrNull input.parent_id with
      | none =>
        let row : Comment :=
          { id := newId, post_id := input.post_id, parent_id := none,
            path := [newId], content := sres.original,
            sanitized_content := some sres.sanitized,
            sanitizer_version := some sres.version,
            author_name := jsTrim input.author_name,
            author_email := input.author_email,
            created_by := input.created_by,
            created_at := now, updated_at := now }
        (.ok row, { s with comments := s.comments ++ [row] })
      | some p =>
        match s.comments.find? (fun c => c.id = p) with
        | none =>
          (.error ⟨"PARENT_NOT_FOUND", "Parent comment does not exist"⟩, s)
        | some parent =>
          if parent.post_id ≠ input.post_id then
            (.error ⟨"PARENT_POST_MISMATCH",
              "Parent comment must belong to the same post"⟩, s)
          else
            let row : Comment :=
              { id := newId, post_id := input.post_id, parent_id := some p,
                path := parent.path ++ [newId], content := sres.original,
                sanitized_content := some sres.sanitized,
                sanitizer_version := some sres.version,
                author_name := jsTrim input.author_name,
                author_email := input.author_email,
                created_by := input.created_by,
                created_at := now, updated_at := now }
            (.ok row,
             { s with comments :=
                (s.comments ++ [row]).map (fun c =>
                  if c.id = p then { c with reply_count := c.reply_count + 1 }
                  else c) })

/-- `softDeleteComment` of the comment service: an UPDATE that sets
`is_deleted`, `deleted_at` and `updated_at` on the row. No reply-count
trigger fires on this update (`decrement_reply_count` only fires on a
hard DELETE and `update_reply_count_on_parent_change` only when
`parent_id` changes). -/
def softDeleteComment (s : DBState) (commentId : String) (now : Nat) :
    Except CommentServiceError Comment × DBState :=
  match s.comments.find? (fun c => c.id = commentId) with
  | none => (.error ⟨"DELETE_FAILED", "Failed to delete comment"⟩, s)
  | some c =>
    let c' := { c with is_deleted := true, deleted_at := some now,
                       updated_at := now }
    (.ok c',
     { s with comments := s.comments.map (fun d =>
         if d.id = commentId then
           { d with is_deleted := true, deleted_at := some now,
                    updated_at := now }
         else d) })

/-- The reply-count invariant of the spec, as a decidable check on a
comment table: every comment's `reply_count` equals the number of
non-deleted comments whose `parent_id` is its id. -/
def replyCountInvariantB (comments : List Comment) : Bool :=
  comments.all (fun c =>
    c.reply_count ==
      (comments.filter (fun d =>
        d.parent_id == some c.id && !d.is_deleted)).length)

-- ============================================================================
-- Moderation service (flagComment with the update_comment_flags_count
-- trigger, getModerationQueue) and moderation constants
-- ============================================================================

/-- `MODERATION_CONSTANTS.AUTO_FLAG_THRESHOLD`. -/
def AUTO_FLAG_THRESHOLD : Nat := 3

/-- `MODERATION_CONSTANTS.DEFAULT_MODERATION_QUEUE_LIMIT`. -/
def DEFAULT_MODERATION_QUEUE_LIMIT : Nat := 50

/-- `MODERATION_CONSTANTS.MAX_MODERATION_QUEUE_LIMIT`. -/
def MAX_MODERATION_QUEUE_LIMIT : Nat := 100

/-- `shouldAutoFlag` of `lib/schemaUtils.ts` (a client-side utility with
its own default threshold; the database trigger below hardcodes 3). -/
def shouldAutoFlag (flagsCount : Nat) (threshold : Nat := 5) : Bool :=
  threshold ≤ flagsCount

/-- INSERT branch of the `update_comment_flags_count` trigger: bump
`flags_count` on the flagged comment and flip an `approved` comment to
`flagged` when the incremented count reaches 3. The CASE expression reads
the pre-update `flags_count` of the row, hence `flags_count + 1`. -/
def update_comment_flags_count (comments : List Comment) (cid : String) :
    List Comment :=
  comments.map (fun c =>
    if c.id = cid then
      { c with
        flags_count := c.flags_count + 1,
        moderation_status :=
          if 3 ≤ c.flags_count + 1 ∧ c.moderation_status = .approved then
            .flagged
          else c.moderation_status }
    else c)

/-- Input of `flagComment` (`FlagCommentInput`). -/
structure FlagCommentInput where
  comment_id : String
  flagged_by : String
  reason : Option String := none

/-- `flagComment` of the moderation service combined with the database
side: comment existence check, the `UNIQUE(comment_id, flagged_by)`
constraint (violation surfaces as `DUPLICATE_FLAG`), the flag insert, and
the `update_comment_flags_count` trigger. -/
def flagComment (s : DBState) (input : FlagCommentInput) (newId : String)
    (now : Nat) : Except ModerationServiceError CommentFlag × DBState :=
  match s.comments.find? (fun c => c.id = input.comment_id) with
  | none => (.error ⟨"COMMENT_NOT_FOUND", "Comment does not exist"⟩, s)
  | some _ =>
    if s.flags.any (fun f =>
        f.comment_id == input.comment_id && f.flagged_by == input.flagged_by) then
      (.error ⟨"DUPLICATE_FLAG", "You have already flagged this comment"⟩, s)
    else
      let fl : CommentFlag :=
        { id := newId, comment_id := input.comment_id,
          flagged_by := input.flagged_by, reason := jsOrNull input.reason,
          created_at := now }
      (.ok fl,
       { s with flags := s.flags ++ [fl],
                comments := update_comment_flags_count s.comments
                  input.comment_id })

/-- A single-or-array moderation status filter
(`ModerationStatus | ModerationStatus[]`). -/
inductive StatusSel where
  | one (s : ModerationStatus)
  | many (l : List ModerationStatus)

/-- Whether a comment passes a status filter: `.eq` for a single status,
`.in` for an array, no filter when absent. -/
def statusMatches (sel : Option StatusSel) (c : Comment) : Bool :=
  match sel with
  | none => true
  | some (.one st) => c.moderation_status == st
  | some (.many l) => l.contains c.moderation_status

/-- Options of `getModerationQueue`; optional fields get their
destructuring defaults inside the function. -/
structure ModQueueOptions where
  status : Option StatusSel := none
  minFlags : Option Nat := none
  limit : Option Nat := none
  offset : Option Nat := none

/-- Queue ordering: `flags_count` descending, then `created_at`
descending. -/
def modQueueLE (a b : Comment) : Prop :=
  b.flags_count < a.flags_count ∨
    (a.flags_count = b.flags_count ∧ b.created_at ≤ a.created_at)

instance : DecidableRel modQueueLE := fun _ _ => by
  unfold modQueueLE; infer_instance

/-- Flag ordering of the queue's second query: `created_at` descending. -/
def flagsDescLE (a b : CommentFlag) : Prop :=
  b.created_at ≤ a.created_at

instance : DecidableRel flagsDescLE := fun _ _ => by
  unfold flagsDescLE; infer_instance

instance : IsTotal Comment modQueueLE :=
  ⟨fun a b => by unfold modQueueLE; omega⟩

instance : IsTrans Comment modQueueLE :=
  ⟨fun a b c hab hbc => by
    unfold modQueueLE at hab hbc ⊢; omega⟩

instance : IsTotal CommentFlag flagsDescLE :=
  ⟨fun a b => by unfold flagsDescLE; omega⟩

instance : IsTrans CommentFlag flagsDescLE :=
  ⟨fun a b c hab hbc => by
    unfold flagsDescLE at hab hbc ⊢; omega⟩

/-- A comment annotated with its flags (`FlaggedComment`). -/
structure FlaggedComment where
  comment : Comment
  flags : List CommentFlag
  deriving DecidableEq, Repr

/-- `getModerationQueue` of the moderation service: comments with
`flags_count ≥ minFlags` and a matching status, ordered by `flags_count`
descending then `created_at` descending, paginated with
`range(offset, offset + limit - 1)`; flags for the returned comments are
fetched newest-first and grouped by `comment_id` (the per-comment group
in insertion-preserving `Map` order is exactly the newest-first filter of
the second query's result). -/
def getModerationQueue (s : DBState) (opts : ModQueueOptions) :
    List FlaggedComment :=
  let status := opts.status.getD (.many [.flagged, .pending])
  let minFlags := opts.minFlags.getD 1
  let limit := opts.limit.getD DEFAULT_MODERATION_QUEUE_LIMIT
  let offset := opts.offset.getD 0
  let matching := s.comments.filter (fun c =>
    decide (minFlags ≤ c.flags_count) && statusMatches (some status) c)
  let comments :=
    (((List.insertionSort modQueueLE matching).drop offset).take limit)
  if comments.isEmpty then []
  else
    let commentIds := comments.map (fun c => c.id)
    let matchingFlags := s.flags.filter (fun f =>
      commentIds.contains f.comment_id)
    let flags := List.insertionSort flagsDescLE matchingFlags
    comments.map (fun c =>
      ⟨c, flags.filter (fun f => f.comment_id == c.id)⟩)

/-- The GET handler of `app/api/admin/comments/[id]/route.ts` around the
queue: parameter defaults, rejection of `limit` outside `1..100`, of
negative `offset` and of negative `minFlags`, then the service call.
Numeric query parameters are `Int`s as parsed by `parseInt`. -/
def routeModerationQueueGET (s : DBState) (statusParam : Option StatusSel)
    (minFlagsParam limitParam offsetParam : Option Int) :
    Except String (List FlaggedComment) :=
  let minFlags := minFlagsParam.getD 1
  let limit := limitParam.getD (DEFAULT_MODERATION_QUEUE_LIMIT : Int)
  let offset := offsetParam.getD 0
  if limit < 1 ∨ (MAX_MODERATION_QUEUE_LIMIT : Int) < limit then
    .error "Limit must be between 1 and 100"
  else if offset < 0 then
    .error "Offset must be non-negative"
  else if minFlags < 0 then
    .error "minFlags must be non-negative"
  else
    .ok (getModerationQueue s
      ⟨statusParam, some minFlags.toNat, some limit.toNat, some offset.toNat⟩)

/-- Length of a route result (`0` for a rejected request); used to state
bounds on what a single call can return. -/
def routeResultLength : Except String (List FlaggedComment) → Nat
  | .error _ => 0
  | .ok l => l.length

-- ============================================================================
-- getCommentsForPost (comment service)
-- ============================================================================

/-- Sort field of `GetCommentsOptions.sortBy`. -/
inductive SortField where
  | created_at
  | updated_at

/-- Sort direction of `GetCommentsOptions.sortDirection`. -/
inductive SortDirection where
  | asc
  | desc

/-- Key extraction for the sort field. -/
def sortFieldKey (f : SortField) (c : Comment) : Nat :=
  match f with
  | .created_at => c.created_at
  | .updated_at => c.updated_at

/-- The comparison `.order(sortBy, {ascending})` sorts by. -/
def commentsOrderLE (f : SortField) (dir : SortDirection) (a b : Comment) :
    Prop :=
  match dir with
  | .asc => sortFieldKey f a ≤ sortFieldKey f b
  | .desc => sortFieldKey f b ≤ sortFieldKey f a

instance (f : SortField) (dir : SortDirection) :
    DecidableRel (commentsOrderLE f dir) := fun _ _ => by
  unfold commentsOrderLE; cases dir <;> infer_instance

/-- Options of `getCommentsForPost` (`GetCommentsOptions`); optional
fields get their destructuring defaults inside the function. -/
structure GetCommentsOptions where
  includeDeleted : Option Bool := none
  moderationStatus : Option StatusSel := none
  asTree : Option Bool := none
  maxDepth : Option Int := none
  limit : Option Nat := none
  offset : Option Nat := none
  sortBy : Option SortField := none
  sortDirection : Option SortDirection := none

/-- The filtered, sorted (but not yet paginated) rows the
`getCommentsForPost` query produces: by post, by deletion state unless
`includeDeleted`, by moderation status if a filter is given, ordered by
the requested field and direction. -/
def commentsQueryRows (s : DBState) (postId : String)
    (opts : GetCommentsOptions) : List Comment :=
  let includeDeleted := opts.includeDeleted.getD false
  let rows := s.comments.filter (fun c =>
    c.post_id == postId
    && (includeDeleted || !c.is_deleted)
    && statusMatches opts.moderationStatus c)
  List.insertionSort (commentsOrderLE (opts.sortBy.getD .created_at)
    (opts.sortDirection.getD .asc)) rows

/-- Result of `getCommentsForPost`: a flat list or a tree. -/
inductive CommentsQueryResult where
  | flat (cs : List Comment)
  | tree (ts : List CommentWithDepth)

/-- `getCommentsForPost` of the comment service: flat mode applies
`range(offset, offset + limit - 1)` only when `limit` is truthy; tree
mode builds the tree from the full filtered set, applies depth limiting
only when `maxDepth` is defined and positive, and slices root-level
siblings (`slice(offset, offset + limit)`) only when `limit` is truthy. -/
def getCommentsForPost (s : DBState) (postId : String)
    (opts : GetCommentsOptions) : CommentsQueryResult :=
  let asTree := opts.asTree.getD false
  let offset := opts.offset.getD 0
  let rows := commentsQueryRows s postId opts
  if !asTree then
    .flat (if jsTruthyNat opts.limit then
      (rows.drop offset).take (opts.limit.getD 0) else rows)
  else
    let tree := buildCommentTree rows
    let limitedTree :=
      match opts.maxDepth with
      | some d => if 0 < d then limitTreeDepth tree d 1 else tree
      | none => tree
    .tree (if jsTruthyNat opts.limit then
      (limitedTree.drop offset).take (opts.limit.getD 0) else limitedTree)

-- ============================================================================
-- Concrete runs used by the theorems below (the sanitizer instantiated
-- with the identity function)
-- ============================================================================

/-- Empty blog with one post. -/
def onePostState : DBState := { posts := ["p1"] }

/-- State after creating top-level comment `A` on post `p1`. -/
def c1StateA : DBState :=
  (createComment id onePostState
    { post_id := "p1", content := "First comment", author_name := "Alice" }
    "A" 1).2

/-- State after additionally creating comment `B` as a reply to `A`. -/
def c1StateAB : DBState :=
  (createComment id c1StateA
    { post_id := "p1", parent_id := some "A", content := "A reply",
      author_name := "Bob" } "B" 2).2

/-- State after additionally soft-deleting the reply `B`. -/
def c1StateDel : DBState := (softDeleteComment c1StateAB "B" 3).2

/-- A comment sitting in the moderation queue (flagged, one flag). -/
def queueDemoComment (i : Nat) : Comment :=
  { id := "c" ++ toString i, post_id := "p", parent_id := none,
    path := ["c" ++ toString i], content := "x", author_name := "u",
    moderation_status := .flagged, flags_count := 1, created_at := i }

/-- A store with 101 queue-eligible comments. -/
def queueDemoState : DBState :=
  { posts := ["p"], comments := (List.range 101).map queueDemoComment }

/-- Comment row resolution of `.eq('id', i).single()`. -/
def lookupComment (comments : List Comment) (i : String) : Option Comment :=
  comments.find? (fun c => c.id = i)

/-- Proof-side notion: id `i` is reachable at depth `n` in the flat list
`xs` — depth 1 for ids of comments with null `parent_id`, one deeper for
each `parent_id` link. The nodes `buildCommentTree` exposes from its
roots are exactly the reachable ones. -/
inductive ReachD (xs : List Comment) : Nat → String → Prop where
  | root (c : Comment) (hc : c ∈ xs) (hp : c.parent_id = none) :
      ReachD xs 1 c.id
  | child (c : Comment) (j : String) (n : Nat) (hc : c ∈ xs)
      (hp : c.parent_id = some j) (hr : ReachD xs n j) :
      ReachD xs (n + 1) c.id

/-- Proof-side notion: `j` equals `i` or is a descendant of `i` along
`parent_id` links within `xs`. -/
inductive DescId (xs : List Comment) : String → String → Prop where
  | refl (i : String) : DescId xs i i
  | step (i j : String) (d : Comment) (hd : d ∈ xs)
      (hp : d.parent_id = some j) (hij : DescId xs i j) : DescId xs i d.id

/-- A demo comment sitting at the auto-flag boundary: approved with two
flags. -/
def flagDemoComment : Comment :=
  { id := "F", post_id := "p", parent_id := none, path := ["F"],
    content := "x", author_name := "u", moderation_status := .approved,
    flags_count := 2 }

/-- A store holding just `flagDemoComment` and no flags. -/
def flagDemoState : DBState :=
  { posts := ["p"], comments := [flagDemoComment] }

/-- Input used by the insert-semantics theorem's instantiation: a reply
to comment `A` on post `p1`. -/
def c2input : CreateCommentInput :=
  { post_id := "p1", parent_id := some "A", content := "hi",
    author_name := "Bob" }

/-- The moderation-queue ordering scenario of the spec: flag counts 5,
2, 5 created at times 1 < 2 < 3. -/
def queueOrderDemo : DBState :=
  { posts := ["p"],
    comments :=
      [ { id := "q1", post_id := "p", parent_id := none, path := ["q1"],
          content := "x", author_name := "u", moderation_status := .flagged,
          flags_count := 5, created_at := 1 },
        { id := "q2", post_id := "p", parent_id := none, path := ["q2"],
          content := "x", author_name := "u", moderation_status := .flagged,
          flags_count := 2, created_at := 2 },
        { id := "q3", post_id := "p", parent_id := none, path := ["q3"],
          content := "x", author_name := "u", moderation_status := .flagged,
          flags_count := 5, created_at := 3 } ],
    flags :=
      [ { id := "g1", comment_id := "q1", flagged_by := "u1",
          created_at := 4 },
        { id := "g2", comment_id := "q1", flagged_by := "u2",
          created_at := 5 } ] }

/-- The comments of the pre-order flattening of the subtree
`buildCommentTree` hangs below id `i` (with `fuel` recursion allowance,
as in `buildNodeF`). -/
def subtreeComments (xs : List Comment) (fuel : Nat) (i : String) :
    List Comment :=
  (flattenCommentTree [buildNodeF xs fuel i]).map (fun t => t.comment)

/-- A nested demo thread on post `p`: roots `A` and `E`, children `B`,
`D` under `A`, grandchild `C` under `B`, and an orphan `O` whose parent
`Z` is absent from the list. -/
def treeDemoComments : List Comment :=
  [ { id := "A", post_id := "p", parent_id := none, path := ["A"],
      content := "a", author_name := "u" },
    { id := "B", post_id := "p", parent_id := some "A", path := ["A", "B"],
      content := "b", author_name := "u" },
    { id := "C", post_id := "p", parent_id := some "B",
      path := ["A", "B", "C"], content := "c", author_name := "u" },
    { id := "D", post_id := "p", parent_id := some "A", path := ["A", "D"],
      content := "d", author_name := "u" },
    { id := "E", post_id := "p", parent_id := none, path := ["E"],
      content := "e", author_name := "u" },
    { id := "O", post_id := "p", parent_id := some "Z", path := ["Z", "O"],
      content := "o", author_name := "u" } ]

-- ============================================================================
-- General helper lemmas
-- ============================================================================

/-- Under unique ids, `find?` by a member's id returns that member. -/
theorem find?_id_of_nodup (xs : List Comment)
    (hN : (xs.map Comment.id).Nodup) (c : Comment) (hc : c ∈ xs) :
    xs.find? (fun d => d.id = c.id) = some c := by
  induction xs with
  | nil => simp at hc
  | cons a tl ih =>
    rw [List.map_cons, List.nodup_cons] at hN
    rcases List.mem_cons.mp hc with rfl | htl
    · exact List.find?_cons_of_pos _ (by simp)
    · have hne : ¬ (a.id = c.id) := fun h =>
        hN.1 (h ▸ List.mem_map_of_mem Comment.id htl)
      rw [List.find?_cons_of_neg _ (by simpa using hne)]
      exact ih hN.2 htl

/-- `find?` by id commutes with an id-preserving row update. -/
theorem find?_map_of_id_preserving (xs : List Comment) (i : String)
    (g : Comment → Comment) (hg : ∀ c, (g c).id = c.id) :
    (xs.map g).find? (fun d => d.id = i) =
      (xs.find? (fun d => d.id = i)).map g := by
  induction xs with
  | nil => rfl
  | cons a tl ih =>
    by_cases h : a.id = i
    · rw [List.map_cons, List.find?_cons_of_pos _ (by simp [hg, h]),
        List.find?_cons_of_pos _ (by simp [h])]
      rfl
    · rw [List.map_cons, List.find?_cons_of_neg _ (by simp [hg, h]),
        List.find?_cons_of_neg _ (by simp [h]), ih]

/-- Characterization of a passing content validation. -/
theorem validateCommentContent_valid_iff (content : String) :
    (validateCommentContent content).valid = true ↔
      content ≠ "" ∧ (jsTrim content).length ≠ 0 ∧
        (jsTrim content).length ≤ CONTENT_POLICY_MAX_LENGTH := by
  unfold validateCommentContent
  split_ifs with h1 h2 h3 <;> simp_all

/-- A failing validation makes `processCommentContent` an error. -/
theorem processCommentContent_eq_error (san : String → String)
    (content : String) (h : (validateCommentContent content).valid = false) :
    processCommentContent san content =
      .error ((validateCommentContent content).error.getD "Invalid content") := by
  unfold processCommentContent
  simp [h]

/-- A passing validation makes `processCommentContent` succeed. -/
theorem processCommentContent_eq_ok (san : String → String) (content : String)
    (h : (validateCommentContent content).valid = true) :
    processCommentContent san content = .ok (sanitizeCommentContent san content) := by
  unfold processCommentContent
  simp [h]

-- ============================================================================
-- C1 — reply-count invariant vs soft delete
-- ============================================================================

/-- C1: the reply-count invariant ("`reply_count` equals the number of
non-deleted children, after any sequence of create, reparent, and
soft-delete operations") breaks on the code: after creating `A`, replying
`B` and soft-deleting `B`, the invariant holds before the delete but
fails after it — `A.reply_count` stays 1 while `A` has no non-deleted
children, because no trigger decrements `reply_count` on a soft delete
(only a hard DELETE fires `decrement_reply_count`). -/
theorem reply_count_invariant_code_bug :
    replyCountInvariantB c1StateAB.comments = true ∧
    replyCountInvariantB c1StateDel.comments = false ∧
    (lookupComment c1StateDel.comments "A").map Comment.reply_count = some 1 ∧
    (c1StateDel.comments.filter (fun d =>
        d.parent_id == some "A" && !d.is_deleted)).length = 0 := by
  decide

-- ============================================================================
-- C7 — moderation queue page size
-- ============================================================================

/-- C7 counterexample: `getModerationQueue` applies no cap of its own —
with 101 eligible comments and `limit := 101` a single call returns
101 > 100 comments. -/
theorem getModerationQueue_can_exceed_max :
    MAX_MODERATION_QUEUE_LIMIT <
      (getModerationQueue queueDemoState { limit := some 101 }).length := by
  decide

/-- The queue result never exceeds the effective limit. -/
theorem getModerationQueue_length_le (s : DBState) (opts : ModQueueOptions) :
    (getModerationQueue s opts).length ≤
      opts.limit.getD DEFAULT_MODERATION_QUEUE_LIMIT := by
  simp only [getModerationQueue]
  split
  · simp
  · rw [List.length_map]
    exact List.length_take_le _ _

/-- C7 (amended): the `limit` option of `getModerationQueue` defaults to
50 (an absent limit behaves exactly like `limit = 50`, and the result
never exceeds the effective limit); the maximum of 100 is enforced at
the admin route, which rejects limits outside `1..100`, so a single call
through the route never returns more than 100 comments. -/
theorem getModerationQueue_default_50_route_max_100 :
    (∀ (s : DBState) (st : Option StatusSel) (mf off : Option Nat),
      getModerationQueue s ⟨st, mf, none, off⟩ =
        getModerationQueue s ⟨st, mf, some DEFAULT_MODERATION_QUEUE_LIMIT, off⟩) ∧
    (∀ (s : DBState) (opts : ModQueueOptions),
      (getModerationQueue s opts).length ≤
        opts.limit.getD DEFAULT_MODERATION_QUEUE_LIMIT) ∧
    (∀ (s : DBState) (st : Option StatusSel) (mf lim off : Option Int),
      routeResultLength (routeModerationQueueGET s st mf lim off) ≤
        MAX_MODERATION_QUEUE_LIMIT) := by
  refine ⟨fun s st mf off => rfl, getModerationQueue_length_le, ?_⟩
  intro s st mf lim off
  simp only [routeModerationQueueGET]
  split_ifs with h1 h2 h3
  · simp [routeResultLength]
  · simp [routeResultLength]
  · simp [routeResultLength]
  · simp only [routeResultLength]
    refine le_trans (getModerationQueue_length_le _ _) ?_
    simp only [Option.getD_some]
    push_neg at h1
    omega

-- ============================================================================
-- C9 — create validation atomicity
-- ============================================================================

/-- C9: `createComment` returns `INVALID_INPUT` and leaves the state
unchanged whenever the content trims to the empty string, the trimmed
content exceeds 10,000 characters, or the author name trims to the empty
string. -/
theorem createComment_invalid_input_rejected (san : String → String)
    (s : DBState) (input : CreateCommentInput) (newId : String) (now : Nat)
    (h : (jsTrim input.content) = "" ∨
         CONTENT_POLICY_MAX_LENGTH < (jsTrim input.content).length ∨
         (jsTrim input.author_name) = "") :
    (∃ msg, (createComment san s input newId now).1 =
        .error ⟨"INVALID_INPUT", msg⟩) ∧
    (createComment san s input newId now).2 = s := by
  by_cases hv : (validateCommentContent input.content).valid = true
  · have hc := (validateCommentContent_valid_iff input.content).mp hv
    have hauthor : (jsTrim input.author_name) = "" := by
      rcases h with h | h | h
      · exact absurd (by simp [h]) hc.2.1
      · omega
      · exact h
    have hpc := processCommentContent_eq_ok san input.content hv
    constructor
    · refine ⟨"Author name is required", ?_⟩
      unfold createComment
      rw [hpc]
      simp [hauthor]
    · unfold createComment
      rw [hpc]
      simp [hauthor]
  · have hv' : (validateCommentContent input.content).valid = false := by
      simpa using hv
    have hpc := processCommentContent_eq_error san input.content hv'
    constructor
    · exact ⟨_, by unfold createComment; rw [hpc]⟩
    · unfold createComment; rw [hpc]

/-- C9 witness: the validation scenario of the spec — blank content with
a valid author name — is rejected with `INVALID_INPUT` and no row is
created. -/
theorem createComment_invalid_input_rejected_witness :
    (jsTrim ("   " : String) = "" ∨
      CONTENT_POLICY_MAX_LENGTH < (jsTrim ("   " : String)).length ∨
      jsTrim ("Bob" : String) = "") ∧
    ((∃ msg, (createComment id onePostState
        { post_id := "p1", content := "   ", author_name := "Bob" } "X" 5).1 =
          .error ⟨"INVALID_INPUT", msg⟩) ∧
      (createComment id onePostState
        { post_id := "p1", content := "   ", author_name := "Bob" } "X" 5).2 =
          onePostState) :=
  ⟨Or.inl (by decide),
   createComment_invalid_input_rejected id onePostState
     { post_id := "p1", content := "   ", author_name := "Bob" } "X" 5
     (Or.inl (by decide))⟩

-- ============================================================================
-- C10 — offset is applied only together with limit
-- ============================================================================

/-- C10: when the `limit` option is undefined, `getCommentsForPost`
returns the same result for every `offset`, in both the flat-list and
the tree-shaped modes. -/
theorem getCommentsForPost_offset_requires_limit (s : DBState)
    (postId : String) (opts : GetCommentsOptions) (o₁ o₂ : Option Nat)
    (h : opts.limit = none) :
    getCommentsForPost s postId { opts with offset := o₁ } =
      getCommentsForPost s postId { opts with offset := o₂ } := by
  obtain ⟨incD, ms, asT, md, lim, off, sb, sd⟩ := opts
  obtain rfl : lim = none := h
  rfl

/-- C10 witness: with no limit, offsets 0 and 5 give the same result on
a concrete store. -/
theorem getCommentsForPost_offset_requires_limit_witness :
    ({ asTree := some true : GetCommentsOptions }.limit = none) ∧
    (getCommentsForPost c1StateAB "p1"
        { ({ asTree := some true } : GetCommentsOptions) with offset := some 0 } =
      getCommentsForPost c1StateAB "p1"
        { ({ asTree := some true } : GetCommentsOptions) with offset := some 5 }) :=
  ⟨rfl, getCommentsForPost_offset_requires_limit c1StateAB "p1"
      { asTree := some true } (some 0) (some 5) rfl⟩

-- ============================================================================
-- C3 / C6 — flag insertion: count, auto-escalation, duplicate rejection
-- ============================================================================

/-- The row update of `update_comment_flags_count` preserves ids. -/
theorem update_comment_flags_count_lookup (comments : List Comment)
    (cid : String) (c : Comment)
    (hfind : comments.find? (fun d => d.id = cid) = some c) :
    lookupComment (update_comment_flags_count comments cid) cid =
      some { c with
        flags_count := c.flags_count + 1,
        moderation_status :=
          if 3 ≤ c.flags_count + 1 ∧ c.moderation_status = .approved then
            .flagged else c.moderation_status } := by
  unfold lookupComment update_comment_flags_count
  rw [find?_map_of_id_preserving _ _ _ (fun d => by split <;> rfl), hfind]
  have hcid : c.id = cid := by
    have := List.find?_some hfind
    simpa using this
  simp [hcid]

/-- C3: a successful flag insert (`flagComment` and the
`update_comment_flags_count` trigger) increments the flagged comment's
`flags_count` by 1 and transitions `moderation_status` from `approved`
to `flagged` exactly when the incremented count is at least 3 and the
current status is `approved`; a comment whose status is `pending`,
`flagged` or `rejected` keeps its status. -/
theorem flag_insert_increments_and_escalates (s : DBState)
    (input : FlagCommentInput) (newId : String) (now : Nat) (c : Comment)
    (hN : (s.comments.map Comment.id).Nodup)
    (hc : c ∈ s.comments) (hid : c.id = input.comment_id)
    (hnodup : s.flags.any (fun f =>
      f.comment_id == input.comment_id &&
        f.flagged_by == input.flagged_by) = false) :
    lookupComment (flagComment s input newId now).2.comments
        input.comment_id =
      some { c with
        flags_count := c.flags_count + 1,
        moderation_status :=
          if 3 ≤ c.flags_count + 1 ∧ c.moderation_status = .approved then
            .flagged else c.moderation_status } ∧
    ((c.moderation_status = .pending ∨ c.moderation_status = .flagged ∨
        c.moderation_status = .rejected) →
      (lookupComment (flagComment s input newId now).2.comments
          input.comment_id).map Comment.moderation_status =
        some c.moderation_status) := by
  have hfind : s.comments.find? (fun d => d.id = input.comment_id) = some c := by
    rw [← hid]
    exact find?_id_of_nodup s.comments hN c hc
  have hstate : (flagComment s input newId now).2.comments =
      update_comment_flags_count s.comments input.comment_id := by
    unfold flagComment
    rw [hfind]
    simp [hnodup]
  rw [hstate, update_comment_flags_count_lookup s.comments input.comment_id c hfind]
  refine ⟨rfl, fun hst => ?_⟩
  rcases hst with h | h | h <;> simp [h]

/-- C6: flagging the same `(comment_id, flagged_by)` pair twice succeeds
the first time, fails the second time with `DUPLICATE_FLAG` (leaving the
state unchanged), and across the two calls `flags_count` increases by
exactly 1. -/
theorem duplicate_flag_rejected (s : DBState) (input : FlagCommentInput)
    (id₁ id₂ : String) (t₁ t₂ : Nat) (c : Comment)
    (hN : (s.comments.map Comment.id).Nodup)
    (hc : c ∈ s.comments) (hid : c.id = input.comment_id)
    (hnodup : s.flags.any (fun f =>
      f.comment_id == input.comment_id &&
        f.flagged_by == input.flagged_by) = false) :
    (∃ fl, (flagComment s input id₁ t₁).1 = .ok fl) ∧
    (flagComment (flagComment s input id₁ t₁).2 input id₂ t₂).1 =
      .error ⟨"DUPLICATE_FLAG", "You have already flagged this comment"⟩ ∧
    (flagComment (flagComment s input id₁ t₁).2 input id₂ t₂).2 =
      (flagComment s input id₁ t₁).2 ∧
    (lookupComment
        (flagComment (flagComment s input id₁ t₁).2 input id₂ t₂).2.comments
        input.comment_id).map Comment.flags_count =
      some (c.flags_count + 1) := by
  have hfind : s.comments.find? (fun d => d.id = input.comment_id) = some c := by
    rw [← hid]
    exact find?_id_of_nodup s.comments hN c hc
  have hrun1 : flagComment s input id₁ t₁ =
      (.ok ⟨id₁, input.comment_id, input.flagged_by, jsOrNull input.reason, t₁⟩,
       { s with
          flags := s.flags ++
            [⟨id₁, input.comment_id, input.flagged_by, jsOrNull input.reason, t₁⟩],
          comments := update_comment_flags_count s.comments input.comment_id }) := by
    unfold flagComment
    rw [hfind]
    simp [hnodup]
  have hfind₂ : (update_comment_flags_count s.comments input.comment_id).find?
      (fun d => d.id = input.comment_id) =
      some { c with
        flags_count := c.flags_count + 1,
        moderation_status :=
          if 3 ≤ c.flags_count + 1 ∧ c.moderation_status = .approved then
            .flagged else c.moderation_status } :=
    update_comment_flags_count_lookup s.comments input.comment_id c hfind
  have hany₂ : ((s.flags ++
      [(⟨id₁, input.comment_id, input.flagged_by, jsOrNull input.reason, t₁⟩ :
        CommentFlag)]).any (fun f =>
      f.comment_id == input.comment_id &&
        f.flagged_by == input.flagged_by)) = true := by
    rw [List.any_append]
    simp
  have hrun2 : flagComment (flagComment s input id₁ t₁).2 input id₂ t₂ =
      (.error ⟨"DUPLICATE_FLAG", "You have already flagged this comment"⟩,
       (flagComment s input id₁ t₁).2) := by
    rw [hrun1]
    unfold flagComment
    rw [hfind₂]
    simp [hany₂]
  refine ⟨⟨_, by rw [hrun1]⟩, by rw [hrun2], by rw [hrun2], ?_⟩
  rw [hrun2, hrun1]
  simp only [lookupComment, hfind₂]
  rfl

/-- C3 witness: an approved comment with 2 flags is escalated to
`flagged` by the third flag. -/
theorem flag_insert_increments_and_escalates_witness :
    ((flagDemoState.comments.map Comment.id).Nodup ∧
     flagDemoComment ∈ flagDemoState.comments ∧
     flagDemoComment.id = "F" ∧
     flagDemoState.flags.any (fun f =>
       f.comment_id == "F" && f.flagged_by == "alice") = false) ∧
    (lookupComment
        (flagComment flagDemoState ⟨"F", "alice", none⟩ "fl1" 10).2.comments
        "F" =
      some { flagDemoComment with
        flags_count := 3, moderation_status := .flagged } ∧
    ((flagDemoComment.moderation_status = .pending ∨
        flagDemoComment.moderation_status = .flagged ∨
        flagDemoComment.moderation_status = .rejected) →
      (lookupComment
          (flagComment flagDemoState ⟨"F", "alice", none⟩ "fl1" 10).2.comments
          "F").map Comment.moderation_status =
        some flagDemoComment.moderation_status)) :=
  ⟨⟨by decide, by decide, rfl, by decide⟩,
   flag_insert_increments_and_escalates flagDemoState ⟨"F", "alice", none⟩
     "fl1" 10 flagDemoComment (by decide) (by decide) rfl (by decide)⟩

/-- C6 witness: the duplicate-flag scenario at a concrete comment. -/
theorem duplicate_flag_rejected_witness :
    ((flagDemoState.comments.map Comment.id).Nodup ∧
     flagDemoComment ∈ flagDemoState.comments ∧
     flagDemoComment.id = "F" ∧
     flagDemoState.flags.any (fun f =>
       f.comment_id == "F" && f.flagged_by == "alice") = false) ∧
    ((∃ fl, (flagComment flagDemoState ⟨"F", "alice", none⟩ "fl1" 10).1 =
        .ok fl) ∧
     (flagComment (flagComment flagDemoState ⟨"F", "alice", none⟩ "fl1" 10).2
        ⟨"F", "alice", none⟩ "fl2" 11).1 =
       .error ⟨"DUPLICATE_FLAG", "You have already flagged this comment"⟩ ∧
     (flagComment (flagComment flagDemoState ⟨"F", "alice", none⟩ "fl1" 10).2
        ⟨"F", "alice", none⟩ "fl2" 11).2 =
       (flagComment flagDemoState ⟨"F", "alice", none⟩ "fl1" 10).2 ∧
     (lookupComment
        (flagComment (flagComment flagDemoState ⟨"F", "alice", none⟩ "fl1" 10).2
          ⟨"F", "alice", none⟩ "fl2" 11).2.comments
        "F").map Comment.flags_count = some 3) :=
  ⟨⟨by decide, by decide, rfl, by decide⟩,
   duplicate_flag_rejected flagDemoState ⟨"F", "alice", none⟩ "fl1" "fl2" 10 11
     flagDemoComment (by decide) (by decide) rfl (by decide)⟩

-- ============================================================================
-- C2 — insert semantics: path assignment, parent checks, reply count
-- ============================================================================

/-- C2: on insert with valid input and an existing post, `createComment`
with absent `parent_id` gives the row path `[newId]`; with a present
`parent_id` it fails `PARENT_NOT_FOUND` when no such comment exists,
fails `PARENT_POST_MISMATCH` when the parent belongs to another post,
and otherwise sets the new row's path to `parent.path ++ [newId]` and
increments exactly the parent's `reply_count` by 1. -/
theorem createComment_insert_semantics (san : String → String) (s : DBState)
    (input : CreateCommentInput) (newId : String) (now : Nat)
    (hval : (validateCommentContent input.content).valid = true)
    (hauthor : jsTrim input.author_name ≠ "")
    (hpost : input.post_id ∈ s.posts) :
    (input.parent_id = none →
      ∃ row, (createComment san s input newId now).1 = .ok row ∧
        row.path = [newId] ∧
        (createComment san s input newId now).2.comments =
          s.comments ++ [row]) ∧
    (∀ p, input.parent_id = some p → p ≠ "" →
      (lookupComment s.comments p = none →
        createComment san s input newId now =
          (.error ⟨"PARENT_NOT_FOUND", "Parent comment does not exist"⟩, s)) ∧
      (∀ parent, lookupComment s.comments p = some parent →
        (parent.post_id ≠ input.post_id →
          createComment san s input newId now =
            (.error ⟨"PARENT_POST_MISMATCH",
              "Parent comment must belong to the same post"⟩, s)) ∧
        (parent.post_id = input.post_id →
          ∃ row, (createComment san s input newId now).1 = .ok row ∧
            row.path = parent.path ++ [newId] ∧
            (createComment san s input newId now).2.comments =
              List.map (fun c : Comment =>
                if c.id = p then { c with reply_count := c.reply_count + 1 }
                else c) (s.comments ++ [row]) ∧
            lookupComment (createComment san s input newId now).2.comments p =
              some { parent with reply_count := parent.reply_count + 1 }))) := by
  have hpc := processCommentContent_eq_ok san input.content hval
  constructor
  · intro hpnone
    have hjs : jsOrNull input.parent_id = none := by rw [hpnone]; rfl
    have hrun : createComment san s input newId now =
        (.ok
          { id := newId, post_id := input.post_id, parent_id := none,
            path := [newId],
            content := (sanitizeCommentContent san input.content).original,
            sanitized_content :=
              some (sanitizeCommentContent san input.content).sanitized,
            sanitizer_version :=
              some (sanitizeCommentContent san input.content).version,
            author_name := jsTrim input.author_name,
            author_email := input.author_email,
            created_by := input.created_by,
            created_at := now, updated_at := now },
         { s with comments := s.comments ++
            [{ id := newId, post_id := input.post_id, parent_id := none,
               path := [newId],
               content := (sanitizeCommentContent san input.content).original,
               sanitized_content :=
                 some (sanitizeCommentContent san input.content).sanitized,
               sanitizer_version :=
                 some (sanitizeCommentContent san input.content).version,
               author_name := jsTrim input.author_name,
               author_email := input.author_email,
               created_by := input.created_by,
               created_at := now, updated_at := now }] }) := by
      unfold createComment
      rw [hpc]
      simp [hauthor, hpost, hjs]
    exact ⟨_, by rw [hrun], rfl, by rw [hrun]⟩
  · intro p hp hpne
    have hjs : jsOrNull input.parent_id = some p := by
      rw [hp]; simp [jsOrNull, jsTruthyStr, hpne]
    constructor
    · intro hnone
      unfold lookupComment at hnone
      unfold createComment
      rw [hpc]
      simp [hauthor, hpost, hjs, hnone]
    · intro parent hpar
      unfold lookupComment at hpar
      constructor
      · intro hmis
        unfold createComment
        rw [hpc]
        simp [hauthor, hpost, hjs, hpar, hmis]
      · intro hsame
        have hrun : createComment san s input newId now =
            (.ok
              { id := newId, post_id := input.post_id, parent_id := some p,
                path := parent.path ++ [newId],
                content := (sanitizeCommentContent san input.content).original,
                sanitized_content :=
                  some (sanitizeCommentContent san input.content).sanitized,
                sanitizer_version :=
                  some (sanitizeCommentContent san input.content).version,
                author_name := jsTrim input.author_name,
                author_email := input.author_email,
                created_by := input.created_by,
                created_at := now, updated_at := now },
             { s with comments :=
                (List.map (fun c : Comment =>
                  if c.id = p then { c with reply_count := c.reply_count + 1 }
                  else c)
                 (s.comments ++
                  [({ id := newId, post_id := input.post_id,
                      parent_id := some p,
                      path := parent.path ++ [newId],
                      content :=
                        (sanitizeCommentContent san input.content).original,
                      sanitized_content :=
                        some (sanitizeCommentContent san input.content).sanitized,
                      sanitizer_version :=
                        some (sanitizeCommentContent san input.content).version,
                      author_name := jsTrim input.author_name,
                      author_email := input.author_email,
                      created_by := input.created_by,
                      created_at := now, updated_at := now } : Comment)])) }) := by
          unfold createComment
          rw [hpc]
          simp [hauthor, hpost, hjs, hpar, hsame]
        refine ⟨_, by rw [hrun], rfl, by rw [hrun], ?_⟩
        rw [hrun]
        unfold lookupComment
        rw [find?_map_of_id_preserving _ _ _ (fun d => by split <;> rfl),
          List.find?_append, hpar]
        have hpid : parent.id = p := by
          have := List.find?_some hpar
          simpa using this
        simp [hpid]

/-- C2 witness: the insert-semantics theorem instantiated at the state
holding comment `A`, replying to it. -/
theorem createComment_insert_semantics_witness :
    ((validateCommentContent "hi").valid = true ∧ jsTrim "Bob" ≠ "" ∧
      "p1" ∈ c1StateA.posts) ∧
    (((some "A" : Option String) = none →
      ∃ row, (createComment id c1StateA c2input "B2" 9).1 = .ok row ∧
        row.path = ["B2"] ∧
        (createComment id c1StateA c2input "B2" 9).2.comments =
          c1StateA.comments ++ [row]) ∧
    (∀ p, (some "A" : Option String) = some p → p ≠ "" →
      (lookupComment c1StateA.comments p = none →
        createComment id c1StateA c2input "B2" 9 =
          (.error ⟨"PARENT_NOT_FOUND", "Parent comment does not exist"⟩,
           c1StateA)) ∧
      (∀ parent, lookupComment c1StateA.comments p = some parent →
        (parent.post_id ≠ "p1" →
          createComment id c1StateA c2input "B2" 9 =
            (.error ⟨"PARENT_POST_MISMATCH",
              "Parent comment must belong to the same post"⟩, c1StateA)) ∧
        (parent.post_id = "p1" →
          ∃ row, (createComment id c1StateA c2input "B2" 9).1 = .ok row ∧
            row.path = parent.path ++ ["B2"] ∧
            (createComment id c1StateA c2input "B2" 9).2.comments =
              List.map (fun c : Comment =>
                if c.id = p then { c with reply_count := c.reply_count + 1 }
                else c) (c1StateA.comments ++ [row]) ∧
            lookupComment
                (createComment id c1StateA c2input "B2" 9).2.comments p =
              some { parent with
                reply_count := parent.reply_count + 1 })))) :=
  ⟨⟨by decide, by decide, by decide⟩,
   createComment_insert_semantics id c1StateA c2input "B2" 9 (by decide)
     (by decide) (by decide)⟩

-- ============================================================================
-- C5 — depth truncation
-- ============================================================================

/-- Unfolding: `cutForest` on the empty forest. -/
theorem cutForest_nil (k : Nat) : cutForest k [] = [] := by
  cases k <;> simp [cutForest]

/-- Unfolding: `cutForest 0` empties every node's children. -/
theorem cutForest_cons_zero (t : CommentWithDepth)
    (rest : List CommentWithDepth) :
    cutForest 0 (t :: rest) =
      .node t.comment t.depth [] :: cutForest 0 rest := by
  simp [cutForest]

/-- Unfolding: `cutForest (k+1)` keeps a node and cuts its children at
`k`. -/
theorem cutForest_cons_succ (k : Nat) (t : CommentWithDepth)
    (rest : List CommentWithDepth) :
    cutForest (k + 1) (t :: rest) =
      .node t.comment t.depth (cutForest k t.children) ::
        cutForest (k + 1) rest := by
  simp [cutForest]

/-- `limitTreeDepth` is exactly `cutForest` with `(maxDepth -
currentDepth).toNat` levels of children kept. -/
theorem limitTreeDepth_eq_cutForest (ts : List CommentWithDepth)
    (maxD curD : Int) :
    limitTreeDepth ts maxD curD = cutForest (maxD - curD).toNat ts := by
  induction ts, maxD, curD using limitTreeDepth.induct with
  | case1 maxD curD => simp [limitTreeDepth, cutForest_nil]
  | case2 t rest maxD curD ih1 ih2 =>
    by_cases h : maxD ≤ curD
    · have h0 : (maxD - curD).toNat = 0 := by omega
      rw [h0, cutForest_cons_zero]
      simp [limitTreeDepth, h, h0, ih2]
    · have h1 : (maxD - curD).toNat = (maxD - (curD + 1)).toNat + 1 := by
        omega
      rw [h1, cutForest_cons_succ]
      simp [limitTreeDepth, h, ih1, ih2, h1]

/-- `cutForest` preserves the number of nodes at its level. -/
theorem cutForest_length (ts : List CommentWithDepth) (k : Nat) :
    (cutForest k ts).length = ts.length := by
  induction ts generalizing k with
  | nil => simp [cutForest_nil]
  | cons t rest ih =>
    cases k <;> simp [cutForest_cons_zero, cutForest_cons_succ, ih]

/-- `cutForest` distributes over append. -/
theorem cutForest_append (a b : List CommentWithDepth) (k : Nat) :
    cutForest k (a ++ b) = cutForest k a ++ cutForest k b := by
  induction a generalizing k with
  | nil => simp [cutForest_nil]
  | cons t rest ih =>
    cases k <;> simp [cutForest_cons_zero, cutForest_cons_succ, ih]

/-- Going one level down under a positive cut lowers the cut by one. -/
theorem cutForest_flatMap_children (ts : List CommentWithDepth) (k : Nat) :
    (cutForest (k + 1) ts).flatMap (fun t => t.children) =
      cutForest k (ts.flatMap (fun t => t.children)) := by
  induction ts with
  | nil => simp [cutForest_nil]
  | cons t rest ih =>
    rw [cutForest_cons_succ]
    simp only [List.flatMap_cons, cutForest_append, ih]
    rfl

/-- `nodesAtLevel` of the empty forest. -/
theorem nodesAtLevel_nil (ℓ : Nat) : nodesAtLevel ℓ [] = [] := by
  induction ℓ with
  | zero => rfl
  | succ n ih =>
    cases n with
    | zero => rfl
    | succ m =>
      simp only [nodesAtLevel, List.flatMap_nil]
      exact ih

/-- Peeling one level off `nodesAtLevel`. -/
theorem nodesAtLevel_succ (ℓ : Nat) (hℓ : 1 ≤ ℓ)
    (ts : List CommentWithDepth) :
    nodesAtLevel (ℓ + 1) ts =
      nodesAtLevel ℓ (ts.flatMap (fun t => t.children)) := by
  match ℓ, hℓ with
  | ℓ + 1, _ => rfl

/-- The nodes at level `ℓ` of a cut forest are the original level-`ℓ`
nodes, cut `ℓ - 1` levels lower. -/
theorem nodesAtLevel_cutForest (ℓ : Nat) (hℓ : 1 ≤ ℓ) :
    ∀ (k : Nat) (ts : List CommentWithDepth), ℓ - 1 ≤ k →
      nodesAtLevel ℓ (cutForest k ts) =
        cutForest (k - (ℓ - 1)) (nodesAtLevel ℓ ts) := by
  induction ℓ with
  | zero => omega
  | succ n ih =>
    intro k ts hk
    cases n with
    | zero => simp [nodesAtLevel]
    | succ m =>
      obtain ⟨k', rfl⟩ : ∃ k', k = k' + 1 := ⟨k - 1, by omega⟩
      rw [nodesAtLevel_succ (m + 1) (by omega),
        nodesAtLevel_succ (m + 1) (by omega),
        cutForest_flatMap_children,
        ih (by omega) k' _ (by omega)]
      congr 1
      omega

/-- Every node of `cutForest 0` has empty children. -/
theorem cutForest_zero_children (ts : List CommentWithDepth) :
    ∀ t ∈ cutForest 0 ts, t.children = [] := by
  induction ts with
  | nil => intro t ht; rw [cutForest_nil] at ht; cases ht
  | cons a rest ih =>
    intro t ht
    rw [cutForest_cons_zero] at ht
    rcases List.mem_cons.mp ht with rfl | h
    · rfl
    · exact ih t h

/-- The children of `cutForest 0` nodes flatten to nothing. -/
theorem cutForest_zero_flatMap (ts : List CommentWithDepth) :
    (cutForest 0 ts).flatMap (fun t => t.children) = [] := by
  induction ts with
  | nil => simp [cutForest_nil]
  | cons a rest ih =>
    rw [cutForest_cons_zero, List.flatMap_cons]
    simp only [CommentWithDepth.children, List.nil_append]
    exact ih

/-- Levels strictly below a fully cut level are empty. -/
theorem nodesAtLevel_cutForest_deep (k m : Nat) :
    ∀ ts : List CommentWithDepth,
      nodesAtLevel (k + 2 + m) (cutForest k ts) = [] := by
  induction k with
  | zero =>
    intro ts
    rw [show 0 + 2 + m = (1 + m) + 1 by omega,
      nodesAtLevel_succ (1 + m) (by omega), cutForest_zero_flatMap,
      nodesAtLevel_nil]
  | succ k ih =>
    intro ts
    rw [show k + 1 + 2 + m = (k + 2 + m) + 1 by omega,
      nodesAtLevel_succ (k + 2 + m) (by omega)]
    rw [cutForest_flatMap_children ts k]
    exact ih _

/-- `cutForest` keeps every node's comment and depth. -/
theorem cutForest_map_data (ts : List CommentWithDepth) (k : Nat) :
    (cutForest k ts).map (fun t => (t.comment, t.depth)) =
      ts.map (fun t => (t.comment, t.depth)) := by
  induction ts generalizing k with
  | nil => simp [cutForest_nil]
  | cons t rest ih =>
    cases k with
    | zero =>
      rw [cutForest_cons_zero, List.map_cons, List.map_cons, ih]
      rfl
    | succ n =>
      rw [cutForest_cons_succ, List.map_cons, List.map_cons, ih]
      rfl

/-- A positive cut keeps every node's direct child count. -/
theorem cutForest_succ_map_childlen (ts : List CommentWithDepth) (k : Nat) :
    (cutForest (k + 1) ts).map (fun t => t.children.length) =
      ts.map (fun t => t.children.length) := by
  induction ts with
  | nil => simp [cutForest_nil]
  | cons t rest ih =>
    rw [cutForest_cons_succ, List.map_cons, List.map_cons, ih]
    congr 1
    exact cutForest_length t.children k

/-- C5: for `maxDepth = d ≥ 1`, `limitTreeDepth` empties the children of
every node at level `d` (keeping the node itself: comments and depth
annotations at every level up to `d` are unchanged), keeps the child
count of every node at levels strictly below `d`, and leaves nothing
deeper than level `d`; in `getCommentsForPost`, a `maxDepth` of 0
behaves like an unset `maxDepth`, and an unset `maxDepth` applies no
truncation to the assembled tree at all. -/
theorem limitTreeDepth_spec :
    (∀ (ts : List CommentWithDepth) (d : Int), 1 ≤ d →
      ∀ t ∈ nodesAtLevel d.toNat (limitTreeDepth ts d 1), t.children = []) ∧
    (∀ (ts : List CommentWithDepth) (d : Int), 1 ≤ d →
      ∀ ℓ : Nat, 1 ≤ ℓ → (ℓ : Int) ≤ d →
        (nodesAtLevel ℓ (limitTreeDepth ts d 1)).map
            (fun t => (t.comment, t.depth)) =
          (nodesAtLevel ℓ ts).map (fun t => (t.comment, t.depth))) ∧
    (∀ (ts : List CommentWithDepth) (d : Int), 1 ≤ d →
      ∀ ℓ : Nat, 1 ≤ ℓ → (ℓ : Int) < d →
        (nodesAtLevel ℓ (limitTreeDepth ts d 1)).map
            (fun t => t.children.length) =
          (nodesAtLevel ℓ ts).map (fun t => t.children.length)) ∧
    (∀ (ts : List CommentWithDepth) (d : Int), 1 ≤ d →
      ∀ ℓ : Nat, d.toNat < ℓ → nodesAtLevel ℓ (limitTreeDepth ts d 1) = []) ∧
    (∀ (s : DBState) (pid : String) (opts : GetCommentsOptions),
      getCommentsForPost s pid { opts with maxDepth := some 0 } =
        getCommentsForPost s pid { opts with maxDepth := none }) ∧
    (∀ (s : DBState) (pid : String) (opts : GetCommentsOptions),
      getCommentsForPost s pid
          { opts with maxDepth := none, asTree := some true } =
        .tree (if jsTruthyNat opts.limit then
          ((buildCommentTree (commentsQueryRows s pid
              { opts with maxDepth := none, asTree := some true })).drop
            (opts.offset.getD 0)).take (opts.limit.getD 0)
        else buildCommentTree (commentsQueryRows s pid
          { opts with maxDepth := none, asTree := some true }))) := by
  refine ⟨?_, ?_, ?_, ?_, ?_, ?_⟩
  · intro ts d hd t ht
    rw [limitTreeDepth_eq_cutForest,
      nodesAtLevel_cutForest d.toNat (by omega) _ ts (by omega)] at ht
    have h0 : (d - 1).toNat - (d.toNat - 1) = 0 := by omega
    rw [h0] at ht
    exact cutForest_zero_children _ t ht
  · intro ts d hd ℓ hℓ hld
    rw [limitTreeDepth_eq_cutForest,
      nodesAtLevel_cutForest ℓ hℓ _ ts (by omega), cutForest_map_data]
  · intro ts d hd ℓ hℓ hld
    rw [limitTreeDepth_eq_cutForest,
      nodesAtLevel_cutForest ℓ hℓ _ ts (by omega)]
    obtain ⟨m, hm⟩ : ∃ m, (d - 1).toNat - (ℓ - 1) = m + 1 :=
      ⟨(d - 1).toNat - (ℓ - 1) - 1, by omega⟩
    rw [hm, cutForest_succ_map_childlen]
  · intro ts d hd ℓ hℓ
    rw [limitTreeDepth_eq_cutForest]
    obtain ⟨m, rfl⟩ : ∃ m, ℓ = (d - 1).toNat + 2 + m :=
      ⟨ℓ - ((d - 1).toNat + 2), by omega⟩
    exact nodesAtLevel_cutForest_deep _ m ts
  · intro s pid opts
    rfl
  · intro s pid opts
    rfl

/-- Stripping the flags annotation recovers the underlying comments. -/
theorem map_comment_mk (l : List Comment) (g : Comment → List CommentFlag) :
    (l.map (fun c => (⟨c, g c⟩ : FlaggedComment))).map
      FlaggedComment.comment = l := by
  induction l with
  | nil => rfl
  | cons a t ih => simp [ih]

/-- C8: with the default offset and a limit large enough to hold them,
`getModerationQueue` returns exactly the comments with
`flags_count ≥ minFlags` (default 1) whose `moderation_status` lies in
the requested set (default `{flagged, pending}`) — as a permutation
ordered by `flags_count` descending then `created_at` descending
(`modQueueLE`) — each annotated with precisely its own flags, newest
first. -/
theorem getModerationQueue_contents_and_order (s : DBState)
    (opts : ModQueueOptions) (hoff : opts.offset = none)
    (hlen : (s.comments.filter (fun c =>
        decide (opts.minFlags.getD 1 ≤ c.flags_count) &&
          statusMatches (some (opts.status.getD (.many [.flagged, .pending])))
            c)).length ≤
      opts.limit.getD DEFAULT_MODERATION_QUEUE_LIMIT) :
    ((getModerationQueue s opts).map FlaggedComment.comment).Perm
      (s.comments.filter (fun c =>
        decide (opts.minFlags.getD 1 ≤ c.flags_count) &&
          statusMatches (some (opts.status.getD (.many [.flagged, .pending])))
            c)) ∧
    ((getModerationQueue s opts).map FlaggedComment.comment).Pairwise
      modQueueLE ∧
    (∀ fc ∈ getModerationQueue s opts,
      fc.flags.Perm (s.flags.filter (fun f => f.comment_id == fc.comment.id)) ∧
      fc.flags.Pairwise flagsDescLE) := by
  simp only [getModerationQueue, hoff, Option.getD_none, List.drop_zero]
  rw [List.take_of_length_le (by rw [List.length_insertionSort]; exact hlen)]
  split
  case isTrue h =>
    have hs := List.isEmpty_iff.mp h
    have hMnil := List.perm_nil.mp ((hs ▸ List.perm_insertionSort modQueueLE
      (s.comments.filter (fun c =>
        decide (opts.minFlags.getD 1 ≤ c.flags_count) &&
          statusMatches (some (opts.status.getD (.many [.flagged, .pending])))
            c))).symm)
    refine ⟨?_, ?_, ?_⟩ <;> simp [hMnil]
  case isFalse h =>
    refine ⟨?_, ?_, ?_⟩
    · rw [map_comment_mk]
      exact List.perm_insertionSort _ _
    · rw [map_comment_mk]
      exact List.sorted_insertionSort _ _
    · intro fc hfc
      rw [List.mem_map] at hfc
      obtain ⟨c, hc, rfl⟩ := hfc
      constructor
      · refine ((List.perm_insertionSort flagsDescLE _).filter _).trans ?_
        rw [List.filter_filter]
        have heq : List.filter (fun f : CommentFlag =>
            (f.comment_id == c.id) &&
              ((List.insertionSort modQueueLE
                (s.comments.filter (fun c =>
                  decide (opts.minFlags.getD 1 ≤ c.flags_count) &&
                    statusMatches
                      (some (opts.status.getD (.many [.flagged, .pending])))
                      c))).map (fun c => c.id)).contains f.comment_id)
            s.flags =
            List.filter (fun f : CommentFlag => f.comment_id == c.id)
              s.flags := by
          refine List.filter_congr (fun f hf => ?_)
          cases hq : (f.comment_id == c.id) with
          | false => simp
          | true =>
            simp only [Bool.true_and]
            have hfc : f.comment_id = c.id := by
              simpa using hq
            rw [hfc]
            exact List.elem_eq_true_of_mem
              (List.mem_map_of_mem (fun c => c.id) hc)
        rw [heq]
      · exact List.Pairwise.sublist (List.filter_sublist _)
          (List.sorted_insertionSort flagsDescLE _)


/-- C8 witness: the spec's ordering scenario — flag counts 5, 2, 5 at
times 1 < 2 < 3 — run through the theorem at the default options. -/
theorem getModerationQueue_contents_and_order_witness :
    (({} : ModQueueOptions).offset = none ∧
     (queueOrderDemo.comments.filter (fun c =>
        decide (({} : ModQueueOptions).minFlags.getD 1 ≤ c.flags_count) &&
          statusMatches
            (some (({} : ModQueueOptions).status.getD
              (.many [.flagged, .pending]))) c)).length ≤
      ({} : ModQueueOptions).limit.getD DEFAULT_MODERATION_QUEUE_LIMIT) ∧
    (((getModerationQueue queueOrderDemo {}).map FlaggedComment.comment).Perm
      (queueOrderDemo.comments.filter (fun c =>
        decide (({} : ModQueueOptions).minFlags.getD 1 ≤ c.flags_count) &&
          statusMatches
            (some (({} : ModQueueOptions).status.getD
              (.many [.flagged, .pending]))) c)) ∧
    ((getModerationQueue queueOrderDemo {}).map FlaggedComment.comment).Pairwise
      modQueueLE ∧
    (∀ fc ∈ getModerationQueue queueOrderDemo {},
      fc.flags.Perm (queueOrderDemo.flags.filter (fun f =>
        f.comment_id == fc.comment.id)) ∧
      fc.flags.Pairwise flagsDescLE)) :=
  ⟨⟨rfl, by decide⟩,
   getModerationQueue_contents_and_order queueOrderDemo {} rfl (by decide)⟩

-- ============================================================================
-- C4 — tree/flat round-trip: basic facts
-- ============================================================================

/-- Unfolding: flattening the empty forest. -/
theorem flattenCommentTree_nil : flattenCommentTree [] = [] := by
  simp [flattenCommentTree]

/-- Unfolding: flattening a forest with a head tree. -/
theorem flattenCommentTree_cons (t : CommentWithDepth)
    (rest : List CommentWithDepth) :
    flattenCommentTree (t :: rest) =
      t :: (flattenCommentTree t.children ++ flattenCommentTree rest) := by
  simp [flattenCommentTree]

/-- Flattening a single tree. -/
theorem flattenCommentTree_single (t : CommentWithDepth) :
    flattenCommentTree [t] = t :: flattenCommentTree t.children := by
  rw [flattenCommentTree_cons, flattenCommentTree_nil, List.append_nil]

/-- Flattening a forest is flattening its trees one by one. -/
theorem flattenCommentTree_eq_flatMap (ts : List CommentWithDepth) :
    flattenCommentTree ts = ts.flatMap (fun t => flattenCommentTree [t]) := by
  induction ts with
  | nil => simp [flattenCommentTree_nil]
  | cons t rest ih =>
    rw [flattenCommentTree_cons, List.flatMap_cons,
      flattenCommentTree_single, ih]
    simp

/-- Membership in `childData`. -/
theorem mem_childData {xs : List Comment} {i : String} {d : Comment} :
    d ∈ childData xs i ↔ d ∈ xs ∧ d.parent_id = some i := by
  simp [childData]

/-- Unique ids make id-equal members equal. -/
theorem id_inj_of_nodup {xs : List Comment}
    (hN : (xs.map Comment.id).Nodup) {a b : Comment} (ha : a ∈ xs)
    (hb : b ∈ xs) (hid : a.id = b.id) : a = b :=
  List.inj_on_of_nodup_map hN ha hb hid

/-- Under unique ids the map entry for a member's id is that member. -/
theorem dataOf_eq (xs : List Comment) (hN : (xs.map Comment.id).Nodup)
    (c : Comment) (hc : c ∈ xs) : dataOf xs c.id = c := by
  unfold dataOf
  rw [find?_id_of_nodup xs.reverse
    (by rw [List.map_reverse]; exact List.nodup_reverse.mpr hN) c
    (List.mem_reverse.mpr hc)]
  rfl

/-- Pointwise congruence for `flatMap`. -/
theorem flatMap_congr_mem {α β : Type} {l : List α} {g h : α → List β}
    (hgh : ∀ a ∈ l, g a = h a) : l.flatMap g = l.flatMap h := by
  induction l with
  | nil => rfl
  | cons a rest ih =>
    rw [List.flatMap_cons, List.flatMap_cons, hgh a (by simp),
      ih (fun a ha => hgh a (by simp [ha]))]

/-- A `flatMap` whose entries are all empty. -/
theorem flatMap_eq_nil_mem {α β : Type} {l : List α} {g : α → List β}
    (hg : ∀ a ∈ l, g a = []) : l.flatMap g = [] := by
  rw [flatMap_congr_mem hg]
  simp

/-- A `flatMap` with a single non-empty entry. -/
theorem flatMap_single_nonnil {α β : Type} {l : List α} {g : α → List β}
    {a : α} (ha : a ∈ l) (hnd : l.Nodup)
    (h : ∀ b ∈ l, b ≠ a → g b = []) : l.flatMap g = g a := by
  induction l with
  | nil => cases ha
  | cons x rest ih =>
    rw [List.flatMap_cons]
    rcases List.mem_cons.mp ha with rfl | ha'
    · rw [flatMap_eq_nil_mem (fun b hb =>
        h b (List.mem_cons_of_mem _ hb)
          (fun hba => (List.nodup_cons.mp hnd).1 (hba ▸ hb)))]
      simp
    · rw [h x (by simp) (fun hxa => (List.nodup_cons.mp hnd).1 (hxa ▸ ha')),
        List.nil_append]
      exact ih ha' (List.nodup_cons.mp hnd).2
        (fun b hb => h b (List.mem_cons_of_mem _ hb))

/-- Unfolding: subtree comments with no fuel. -/
theorem subtreeComments_zero (xs : List Comment) (i : String) :
    subtreeComments xs 0 i = [dataOf xs i] := by
  unfold subtreeComments
  rw [show buildNodeF xs 0 i =
    .node (dataOf xs i) (dataOf xs i).path.length [] from rfl]
  rw [flattenCommentTree_single]
  simp [CommentWithDepth.children, CommentWithDepth.comment,
    flattenCommentTree_nil]

/-- Unfolding: subtree comments with positive fuel — the node's data
followed by the subtrees of its children in stored order. -/
theorem subtreeComments_succ (xs : List Comment) (fuel : Nat) (i : String) :
    subtreeComments xs (fuel + 1) i =
      dataOf xs i ::
        (childData xs i).flatMap (fun d => subtreeComments xs fuel d.id) := by
  unfold subtreeComments
  rw [show buildNodeF xs (fuel + 1) i =
    .node (dataOf xs i) (dataOf xs i).path.length
      ((childData xs i).map (fun d => buildNodeF xs fuel d.id)) from rfl]
  rw [flattenCommentTree_single]
  simp only [CommentWithDepth.children, CommentWithDepth.comment,
    List.map_cons]
  congr 1
  rw [flattenCommentTree_eq_flatMap, List.flatMap_map, List.map_flatMap]

/-- The flattening of the whole built forest, one root subtree at a
time. -/
theorem flatten_buildCommentTree (xs : List Comment) :
    (flattenCommentTree (buildCommentTree xs)).map (fun t => t.comment) =
      (xs.filter (fun c => c.parent_id = none)).flatMap
        (fun c => subtreeComments xs xs.length c.id) := by
  unfold buildCommentTree
  rw [flattenCommentTree_eq_flatMap, List.flatMap_map, List.map_flatMap]
  rfl

-- ============================================================================
-- C4 — reachability: functional depth, bounds, fuel stability
-- ============================================================================

/-- Every reachable id belongs to a comment of the list. -/
theorem ReachD_exists_comment {xs : List Comment} {n : Nat} {i : String}
    (h : ReachD xs n i) : ∃ c ∈ xs, c.id = i := by
  cases h with
  | root c hc hp => exact ⟨c, hc, rfl⟩
  | child c j n hc hp hr => exact ⟨c, hc, rfl⟩

/-- Inversion of reachability. -/
theorem ReachD_inv {xs : List Comment} {n : Nat} {i : String}
    (h : ReachD xs n i) :
    ∃ c ∈ xs, c.id = i ∧ ((c.parent_id = none ∧ n = 1) ∨
      (∃ j m, c.parent_id = some j ∧ n = m + 1 ∧ ReachD xs m j)) := by
  cases h with
  | root c hc hp => exact ⟨c, hc, rfl, Or.inl ⟨hp, rfl⟩⟩
  | child c j n hc hp hr => exact ⟨c, hc, rfl, Or.inr ⟨j, n, hp, rfl, hr⟩⟩

/-- Under unique ids, the depth of a reachable id is unique. -/
theorem ReachD_functional {xs : List Comment}
    (hN : (xs.map Comment.id).Nodup) {n m : Nat} {i : String}
    (h1 : ReachD xs n i) (h2 : ReachD xs m i) : n = m := by
  induction h1 generalizing m with
  | root c hc hp =>
    obtain ⟨c', hc', hid', hcase⟩ := ReachD_inv h2
    obtain rfl := id_inj_of_nodup hN hc' hc hid'
    rcases hcase with ⟨_, rfl⟩ | ⟨j, m', hp', _, _⟩
    · rfl
    · rw [hp] at hp'; cases hp'
  | child c j n hc hp hr ih =>
    obtain ⟨c', hc', hid', hcase⟩ := ReachD_inv h2
    obtain rfl := id_inj_of_nodup hN hc' hc hid'
    rcases hcase with ⟨hp', _⟩ | ⟨j', m', hp', rfl, hr'⟩
    · rw [hp] at hp'; cases hp'
    · rw [hp] at hp'
      obtain rfl := Option.some.inj hp'
      rw [ih hr']

/-- A reachable id has an ancestor at every depth below it. -/
theorem ReachD_ancestor {xs : List Comment} {n : Nat} {i : String}
    (h : ReachD xs n i) : ∀ m, 1 ≤ m → m ≤ n → ∃ j, ReachD xs m j := by
  induction h with
  | root c hc hp =>
    intro m h1 h2
    obtain rfl : m = 1 := by omega
    exact ⟨c.id, ReachD.root c hc hp⟩
  | child c j n hc hp hr ih =>
    intro m h1 h2
    by_cases hm : m = n + 1
    · subst hm
      exact ⟨c.id, ReachD.child c j n hc hp hr⟩
    · exact ih m h1 (by omega)

/-- Depths of reachable ids are bounded by the size of any set
containing all reachable ids. -/
theorem ReachD_le_card {xs : List Comment}
    (hN : (xs.map Comment.id).Nodup) (S : Finset String)
    (hS : ∀ m j, ReachD xs m j → j ∈ S) {n : Nat} {i : String}
    (h : ReachD xs n i) : n ≤ S.card := by
  classical
  have hex : ∀ k : Fin n, ∃ j, ReachD xs (k + 1) j := fun k =>
    ReachD_ancestor h (k + 1) (by omega) (by omega)
  choose f hf using hex
  have hinj : Function.Injective f := by
    intro a b hab
    have := ReachD_functional hN (hf a) (hab ▸ hf b)
    exact Fin.ext (by omega)
  have hcard := Finset.card_le_card_of_injOn (s := Finset.univ) f
    (fun a _ => hS _ _ (hf a)) (fun a _ b _ hab => hinj hab)
  simpa using hcard

/-- Depths of reachable ids are bounded by the list length. -/
theorem ReachD_le_length {xs : List Comment}
    (hN : (xs.map Comment.id).Nodup) {n : Nat} {i : String}
    (h : ReachD xs n i) : n ≤ xs.length := by
  classical
  have := ReachD_le_card hN (xs.map Comment.id).toFinset
    (fun m j hj => by
      obtain ⟨c, hc, rfl⟩ := ReachD_exists_comment hj
      exact List.mem_toFinset.mpr (List.mem_map_of_mem Comment.id hc)) h
  calc n ≤ (xs.map Comment.id).toFinset.card := this
    _ ≤ (xs.map Comment.id).length := List.toFinset_card_le _
    _ = xs.length := List.length_map _ _

/-- On reachable ids, `buildNodeF` is independent of the fuel once the
fuel plus the id's depth passes a bound on all reachable depths. -/
theorem buildNodeF_stable {xs : List Comment} (R : Nat)
    (hR : ∀ m j, ReachD xs m j → m ≤ R) :
    ∀ fuel₁ fuel₂ n i, ReachD xs n i → R + 1 ≤ fuel₁ + n →
      R + 1 ≤ fuel₂ + n → buildNodeF xs fuel₁ i = buildNodeF xs fuel₂ i := by
  intro fuel₁
  induction fuel₁ using Nat.strong_induction_on with
  | _ fuel₁ ih =>
    intro fuel₂ n i hreach h1 h2
    have hn : n ≤ R := hR n i hreach
    obtain ⟨f₁, rfl⟩ : ∃ f, fuel₁ = f + 1 := ⟨fuel₁ - 1, by omega⟩
    obtain ⟨f₂, rfl⟩ : ∃ f, fuel₂ = f + 1 := ⟨fuel₂ - 1, by omega⟩
    show CommentWithDepth.node _ _ _ = CommentWithDepth.node _ _ _
    congr 1
    refine List.map_congr_left (fun d hd => ?_)
    obtain ⟨hdx, hdp⟩ := mem_childData.mp hd
    exact ih f₁ (by omega) f₂ (n + 1) d.id
      (ReachD.child d i n hdx hdp hreach) (by omega) (by omega)

-- ============================================================================
-- C4 — descendant chains
-- ============================================================================

/-- Transitivity of the descendant relation. -/
theorem DescId_trans {xs : List Comment} {a b c : String}
    (h1 : DescId xs a b) (h2 : DescId xs b c) : DescId xs a c := by
  induction h2 with
  | refl => exact h1
  | step j d hd hp hij ih => exact DescId.step _ _ d hd hp ih

/-- Inversion of the descendant relation. -/
theorem DescId_inv {xs : List Comment} {a u : String} (h : DescId xs a u) :
    a = u ∨ ∃ d ∈ xs, ∃ j, d.id = u ∧ d.parent_id = some j ∧
      DescId xs a j := by
  cases h with
  | refl => exact Or.inl rfl
  | step j d hd hp hij => exact Or.inr ⟨d, hd, j, rfl, hp, hij⟩

/-- A descendant of a reachable id is reachable, no shallower. -/
theorem DescId_reach {xs : List Comment} {a b : String}
    (h : DescId xs a b) {n : Nat} (hr : ReachD xs n a) :
    ∃ m, n ≤ m ∧ ReachD xs m b := by
  induction h with
  | refl => exact ⟨n, le_refl n, hr⟩
  | step j d hd hp hij ih =>
    obtain ⟨m, hm, hrj⟩ := ih
    exact ⟨m + 1, by omega, ReachD.child d j m hd hp hrj⟩

/-- Descendants are at least as deep. -/
theorem DescId_le {xs : List Comment} (hN : (xs.map Comment.id).Nodup)
    {a b : String} {n m : Nat} (h : DescId xs a b) (hra : ReachD xs n a)
    (hrb : ReachD xs m b) : n ≤ m := by
  obtain ⟨m', hm', hr'⟩ := DescId_reach h hra
  have := ReachD_functional hN hrb hr'
  omega

/-- An ancestor at the same depth is the id itself. -/
theorem DescId_eq_of_same_depth {xs : List Comment}
    (hN : (xs.map Comment.id).Nodup) {a b : String} {n : Nat}
    (h : DescId xs a b) (hra : ReachD xs n a) (hrb : ReachD xs n b) :
    a = b := by
  induction h with
  | refl => rfl
  | step j d hd hp hij ih =>
    obtain ⟨m, hm, hrj⟩ := DescId_reach hij hra
    have hrd : ReachD xs (m + 1) d.id := ReachD.child d j m hd hp hrj
    have := ReachD_functional hN hrb hrd
    omega

/-- Two same-depth ancestors of one id coincide. -/
theorem DescId_unique_ancestor {xs : List Comment}
    (hN : (xs.map Comment.id).Nodup) :
    ∀ {a u : String}, DescId xs a u → ∀ {b : String}, DescId xs b u →
      ∀ {n : Nat}, ReachD xs n a → ReachD xs n b → a = b := by
  intro a u ha
  induction ha with
  | refl =>
    intro b hb n hra hrb
    exact (DescId_eq_of_same_depth hN hb hrb hra).symm
  | step j d hd hp hij ih =>
    intro b hb n hra hrb
    rcases DescId_inv hb with rfl | ⟨d', hd', j', hid', hp', hij'⟩
    · exact DescId_eq_of_same_depth hN (DescId.step a j d hd hp hij) hra hrb
    · obtain rfl := id_inj_of_nodup hN hd' hd hid'
      rw [hp] at hp'
      obtain rfl := Option.some.inj hp'
      exact ih hij' hra hrb

/-- Walking a strict descendant chain down one step: the target sits
under exactly one child. -/
theorem DescId_step_down {xs : List Comment} {i j : String}
    (h : DescId xs i j) :
    i = j ∨ ∃ d ∈ childData xs i, DescId xs d.id j := by
  induction h with
  | refl => exact Or.inl rfl
  | step j₀ d hd hp hij ih =>
    rcases ih with rfl | ⟨e, he, hde⟩
    · exact Or.inr ⟨d, mem_childData.mpr ⟨hd, hp⟩, DescId.refl d.id⟩
    · exact Or.inr ⟨e, he, DescId.step _ _ d hd hp hde⟩

-- ============================================================================
-- C4 — subtree contents
-- ============================================================================

/-- The map entry of a reachable id is a member carrying that id. -/
theorem dataOf_id_of_reach {xs : List Comment}
    (hN : (xs.map Comment.id).Nodup) {n : Nat} {i : String}
    (h : ReachD xs n i) : (dataOf xs i).id = i ∧ dataOf xs i ∈ xs := by
  obtain ⟨c, hc, rfl⟩ := ReachD_exists_comment h
  rw [dataOf_eq xs hN c hc]
  exact ⟨rfl, hc⟩

/-- A reachable comment is never its own parent. -/
theorem parent_ne_self {xs : List Comment}
    (hN : (xs.map Comment.id).Nodup) {n : Nat} {i : String}
    (h : ReachD xs n i) : (dataOf xs i).parent_id ≠ some i := by
  intro hcon
  obtain ⟨c, hc, hid, hcase⟩ := ReachD_inv h
  have hcc : dataOf xs i = c := by rw [← hid, dataOf_eq xs hN c hc]
  rcases hcase with ⟨hpn, _⟩ | ⟨j₀, m₀, hpj, hnm, hrj₀⟩
  · rw [hcc, hpn] at hcon; cases hcon
  · rw [hcc, hpj] at hcon
    obtain rfl := Option.some.inj hcon
    have := ReachD_functional hN h hrj₀
    omega

/-- Every element of a reachable subtree is a member of the flat list, a
descendant of the subtree's id, and is either the subtree's own node or
a child (in `childData`) of some descendant. -/
theorem subtreeComments_facts {xs : List Comment}
    (hN : (xs.map Comment.id).Nodup) :
    ∀ (fuel : Nat) (i : String) (n : Nat), ReachD xs n i →
      ∀ w ∈ subtreeComments xs fuel i,
        w ∈ xs ∧ DescId xs i w.id ∧
        (w = dataOf xs i ∨ ∃ j, DescId xs i j ∧ w.parent_id = some j ∧
          w ∈ childData xs j) := by
  intro fuel
  induction fuel with
  | zero =>
    intro i n hr w hw
    rw [subtreeComments_zero] at hw
    obtain rfl : w = dataOf xs i := by simpa using hw
    obtain ⟨hid, hmem⟩ := dataOf_id_of_reach hN hr
    exact ⟨hmem, by rw [hid]; exact DescId.refl i, Or.inl rfl⟩
  | succ fuel ih =>
    intro i n hr w hw
    rw [subtreeComments_succ] at hw
    rcases List.mem_cons.mp hw with rfl | hw'
    · obtain ⟨hid, hmem⟩ := dataOf_id_of_reach hN hr
      exact ⟨hmem, by rw [hid]; exact DescId.refl i, Or.inl rfl⟩
    · rw [List.mem_flatMap] at hw'
      obtain ⟨d, hd, hwd⟩ := hw'
      obtain ⟨hdx, hdp⟩ := mem_childData.mp hd
      have hstep : DescId xs i d.id :=
        DescId.step i i d hdx hdp (DescId.refl i)
      have hrd : ReachD xs (n + 1) d.id := ReachD.child d i n hdx hdp hr
      obtain ⟨hwx, hdesc, hcase⟩ := ih d.id (n + 1) hrd w hwd
      refine ⟨hwx, DescId_trans hstep hdesc, ?_⟩
      rcases hcase with rfl | ⟨j, hj1, hj2, hj3⟩
      · right
        have hdid := dataOf_eq xs hN d hdx
        rw [hdid]
        exact ⟨i, DescId.refl i, hdp, hd⟩
      · exact Or.inr ⟨j, DescId_trans hstep hj1, hj2, hj3⟩

/-- The children of `childData` form a duplicate-free list. -/
theorem childData_nodup {xs : List Comment}
    (hN : (xs.map Comment.id).Nodup) (i : String) :
    (childData xs i).Nodup :=
  List.Nodup.of_map Comment.id
    (((List.filter_sublist xs).map Comment.id).nodup hN)

/-- Filtering a reachable subtree by parent id: below a descendant `j`
the filter collects exactly `childData xs j`; below a non-descendant it
collects at most the subtree's own head node. -/
theorem subtreeComments_filter_parent {xs : List Comment}
    (hN : (xs.map Comment.id).Nodup) :
    ∀ (fuel n : Nat) (i : String), ReachD xs n i →
      xs.length + 1 ≤ fuel + n → ∀ j : String,
      (DescId xs i j →
        (subtreeComments xs fuel i).filter
          (fun w => w.parent_id = some j) = childData xs j) ∧
      (¬ DescId xs i j →
        (subtreeComments xs fuel i).filter
            (fun w => w.parent_id = some j) =
          if (dataOf xs i).parent_id = some j then [dataOf xs i]
          else []) := by
  intro fuel
  induction fuel using Nat.strong_induction_on with
  | _ fuel ih =>
    intro n i hr hb j
    have hn := ReachD_le_length hN hr
    obtain ⟨f, rfl⟩ : ∃ f, fuel = f + 1 := ⟨fuel - 1, by omega⟩
    rw [subtreeComments_succ, List.filter_cons, List.filter_flatMap]
    constructor
    · intro hdesc
      rcases DescId_step_down hdesc with rfl | ⟨dstar, hdstar, hdj⟩
      · rw [if_neg (by simpa using parent_ne_self hN hr)]
        have hone : ∀ d ∈ childData xs i,
            (subtreeComments xs f d.id).filter
              (fun w => w.parent_id = some i) = [d] := by
          intro d hd
          obtain ⟨hdx, hdp⟩ := mem_childData.mp hd
          have hrd : ReachD xs (n + 1) d.id := ReachD.child d i n hdx hdp hr
          have hnd : ¬ DescId xs d.id i := by
            intro hcon
            have := DescId_le hN hcon hrd hr
            omega
          rw [((ih f (by omega) (n + 1) d.id hrd (by omega) i).2 hnd),
            dataOf_eq xs hN d hdx, if_pos hdp]
        rw [flatMap_congr_mem hone, List.flatMap_singleton']
      · obtain ⟨hdx, hdp⟩ := mem_childData.mp hdstar
        have hrd : ReachD xs (n + 1) dstar.id :=
          ReachD.child dstar i n hdx hdp hr
        obtain ⟨m, hm, hrj⟩ := DescId_reach hdj hrd
        have hhead : ¬ ((dataOf xs i).parent_id = some j) := by
          intro hcon
          obtain ⟨c', hc', hidc', hcase⟩ := ReachD_inv hr
          have hcc : dataOf xs i = c' := by
            rw [← hidc', dataOf_eq xs hN c' hc']
          rcases hcase with ⟨hpn, _⟩ | ⟨j₀, m₀, hpj, hnm, hrj₀⟩
          · rw [hcc, hpn] at hcon; cases hcon
          · rw [hcc, hpj] at hcon
            obtain rfl := Option.some.inj hcon
            have := ReachD_functional hN hrj hrj₀
            omega
        rw [if_neg (by simpa using hhead)]
        rw [flatMap_single_nonnil hdstar (childData_nodup hN i) ?_]
        · exact (ih f (by omega) (n + 1) dstar.id hrd (by omega) j).1 hdj
        · intro b hb hbne
          obtain ⟨hbx, hbp⟩ := mem_childData.mp hb
          have hrb : ReachD xs (n + 1) b.id := ReachD.child b i n hbx hbp hr
          have hnb : ¬ DescId xs b.id j := by
            intro hcon
            exact hbne (id_inj_of_nodup hN hbx hdx
              (DescId_unique_ancestor hN hcon hdj hrb hrd))
          have hij : i ≠ j := by
            intro hcon
            subst hcon
            have := DescId_le hN hdj hrd hr
            omega
          rw [((ih f (by omega) (n + 1) b.id hrb (by omega) j).2 hnb),
            dataOf_eq xs hN b hbx, hbp, if_neg (by
              intro hcon
              exact hij (Option.some.inj hcon))]
    · intro hndesc
      have hij : i ≠ j := fun hcon => hndesc (hcon ▸ DescId.refl i)
      have hnil : ∀ d ∈ childData xs i,
          (subtreeComments xs f d.id).filter
            (fun w => w.parent_id = some j) = [] := by
        intro d hd
        obtain ⟨hdx, hdp⟩ := mem_childData.mp hd
        have hrd : ReachD xs (n + 1) d.id := ReachD.child d i n hdx hdp hr
        have hnd : ¬ DescId xs d.id j := by
          intro hcon
          exact hndesc (DescId_trans
            (DescId.step i i d hdx hdp (DescId.refl i)) hcon)
        rw [((ih f (by omega) (n + 1) d.id hrd (by omega) j).2 hnd),
          dataOf_eq xs hN d hdx, hdp, if_neg (by
            intro hcon
            exact hij (Option.some.inj hcon))]
      rw [flatMap_eq_nil_mem hnil]
      by_cases hif : (dataOf xs i).parent_id = some j
      · rw [if_pos (by simpa using hif), if_pos hif]
      · rw [if_neg (by simpa using hif), if_neg hif]

-- ============================================================================
-- C4 — the flattened forest as a whole
-- ============================================================================

/-- Filtering a reachable subtree for top-level comments finds at most
its own head. -/
theorem subtreeComments_filter_none {xs : List Comment}
    (hN : (xs.map Comment.id).Nodup) :
    ∀ (fuel n : Nat) (i : String), ReachD xs n i →
      xs.length + 1 ≤ fuel + n →
      (subtreeComments xs fuel i).filter (fun w => w.parent_id = none) =
        if (dataOf xs i).parent_id = none then [dataOf xs i] else [] := by
  intro fuel
  induction fuel using Nat.strong_induction_on with
  | _ fuel ih =>
    intro n i hr hb
    have hn := ReachD_le_length hN hr
    obtain ⟨f, rfl⟩ : ∃ f, fuel = f + 1 := ⟨fuel - 1, by omega⟩
    rw [subtreeComments_succ, List.filter_cons, List.filter_flatMap]
    have hnil : ∀ d ∈ childData xs i,
        (subtreeComments xs f d.id).filter
          (fun w => w.parent_id = none) = [] := by
      intro d hd
      obtain ⟨hdx, hdp⟩ := mem_childData.mp hd
      have hrd : ReachD xs (n + 1) d.id := ReachD.child d i n hdx hdp hr
      rw [ih f (by omega) (n + 1) d.id hrd (by omega),
        dataOf_eq xs hN d hdx, hdp]
      simp
    rw [flatMap_eq_nil_mem hnil]
    by_cases hif : (dataOf xs i).parent_id = none
    · rw [if_pos (by simpa using hif), if_pos hif]
    · rw [if_neg (by simpa using hif), if_neg hif]

/-- Every reachable id sits below some root of the flat list. -/
theorem reach_to_root {xs : List Comment} :
    ∀ {n : Nat} {i : String}, ReachD xs n i →
      ∃ r ∈ xs.filter (fun c => c.parent_id = none), DescId xs r.id i := by
  intro n i h
  induction h with
  | root c hc hp =>
    exact ⟨c, List.mem_filter.mpr ⟨hc, by simp [hp]⟩, DescId.refl c.id⟩
  | child c j n hc hp hr ih =>
    obtain ⟨r, hrm, hrd⟩ := ih
    exact ⟨r, hrm, DescId.step _ _ c hc hp hrd⟩

/-- The roots of the flat list form a duplicate-free list. -/
theorem roots_nodup {xs : List Comment}
    (hN : (xs.map Comment.id).Nodup) :
    (xs.filter (fun c => c.parent_id = none)).Nodup :=
  List.Nodup.of_map Comment.id
    (((List.filter_sublist xs).map Comment.id).nodup hN)

/-- A member of the root filter is reachable at depth 1. -/
theorem roots_reach {xs : List Comment} {r : Comment}
    (hr : r ∈ xs.filter (fun c => c.parent_id = none)) :
    r ∈ xs ∧ r.parent_id = none ∧ ReachD xs 1 r.id := by
  obtain ⟨hrx, hrp⟩ := List.mem_filter.mp hr
  have hrp' : r.parent_id = none := by simpa using hrp
  exact ⟨hrx, hrp', ReachD.root r hrx hrp'⟩

/-- Filtering the flattened built forest by a reachable parent id gives
exactly that parent's stored children. -/
theorem flattenBuild_filter_parent {xs : List Comment}
    (hN : (xs.map Comment.id).Nodup) {n : Nat} {j : String}
    (hrj : ReachD xs n j) :
    ((xs.filter (fun c => c.parent_id = none)).flatMap
        (fun c => subtreeComments xs xs.length c.id)).filter
      (fun w => w.parent_id = some j) = childData xs j := by
  obtain ⟨rstar, hrs, hdesc⟩ := reach_to_root hrj
  obtain ⟨hrx, hrp, hr1⟩ := roots_reach hrs
  rw [List.filter_flatMap]
  rw [flatMap_single_nonnil hrs (roots_nodup hN) ?_]
  · exact (subtreeComments_filter_parent hN xs.length 1 rstar.id hr1
      (by omega) j).1 hdesc
  · intro b hb hbne
    obtain ⟨hbx, hbp, hrb⟩ := roots_reach hb
    have hnb : ¬ DescId xs b.id j := by
      intro hcon
      exact hbne (id_inj_of_nodup hN hbx hrx
        (DescId_unique_ancestor hN hcon hdesc hrb hr1))
    rw [(subtreeComments_filter_parent hN xs.length 1 b.id hrb
      (by omega) j).2 hnb, dataOf_eq xs hN b hbx, hbp]
    simp

/-- Filtering the flattened built forest for top-level comments recovers
the roots in order. -/
theorem flattenBuild_filter_none {xs : List Comment}
    (hN : (xs.map Comment.id).Nodup) :
    ((xs.filter (fun c => c.parent_id = none)).flatMap
        (fun c => subtreeComments xs xs.length c.id)).filter
      (fun w => w.parent_id = none) =
      xs.filter (fun c => c.parent_id = none) := by
  rw [List.filter_flatMap]
  have hone : ∀ r ∈ xs.filter (fun c => c.parent_id = none),
      (subtreeComments xs xs.length r.id).filter
        (fun w => w.parent_id = none) = [r] := by
    intro r hr
    obtain ⟨hrx, hrp, hr1⟩ := roots_reach hr
    rw [subtreeComments_filter_none hN xs.length 1 r.id hr1 (by omega),
      dataOf_eq xs hN r hrx, if_pos hrp]
  rw [flatMap_congr_mem hone, List.flatMap_singleton']

/-- Ids are not repeated inside a reachable subtree. -/
theorem subtreeComments_id_nodup {xs : List Comment}
    (hN : (xs.map Comment.id).Nodup) :
    ∀ (fuel n : Nat) (i : String), ReachD xs n i →
      ((subtreeComments xs fuel i).map Comment.id).Nodup := by
  intro fuel
  induction fuel with
  | zero =>
    intro n i hr
    rw [subtreeComments_zero]
    simp
  | succ f ih =>
    intro n i hr
    rw [subtreeComments_succ, List.map_cons, List.nodup_cons]
    constructor
    · rw [(dataOf_id_of_reach hN hr).1, List.map_flatMap]
      intro hcon
      rw [List.mem_flatMap] at hcon
      obtain ⟨d, hd, hwid⟩ := hcon
      obtain ⟨w, hw, hwi⟩ := List.mem_map.mp hwid
      obtain ⟨hdx, hdp⟩ := mem_childData.mp hd
      have hrd : ReachD xs (n + 1) d.id := ReachD.child d i n hdx hdp hr
      have hdesc := (subtreeComments_facts hN f d.id (n + 1) hrd w hw).2.1
      rw [hwi] at hdesc
      have := DescId_le hN hdesc hrd hr
      omega
    · rw [List.map_flatMap, List.nodup_flatMap]
      constructor
      · intro d hd
        obtain ⟨hdx, hdp⟩ := mem_childData.mp hd
        exact ih (n + 1) d.id (ReachD.child d i n hdx hdp hr)
      · refine List.Pairwise.imp_of_mem ?_ (childData_nodup hN i)
        intro a b ha hb hab x hxa hxb
        obtain ⟨haX, haP⟩ := mem_childData.mp ha
        obtain ⟨hbX, hbP⟩ := mem_childData.mp hb
        have hra : ReachD xs (n + 1) a.id := ReachD.child a i n haX haP hr
        have hrb : ReachD xs (n + 1) b.id := ReachD.child b i n hbX hbP hr
        obtain ⟨w₁, hw₁, rfl⟩ := List.mem_map.mp hxa
        obtain ⟨w₂, hw₂, hid₂⟩ := List.mem_map.mp hxb
        have h1 := (subtreeComments_facts hN f a.id (n + 1) hra w₁ hw₁).2.1
        have h2 := (subtreeComments_facts hN f b.id (n + 1) hrb w₂ hw₂).2.1
        rw [hid₂] at h2
        exact hab (id_inj_of_nodup hN haX hbX
          (DescId_unique_ancestor hN h1 h2 hra hrb))

/-- Ids are not repeated across the flattened built forest. -/
theorem flattenBuild_id_nodup {xs : List Comment}
    (hN : (xs.map Comment.id).Nodup) :
    (((xs.filter (fun c => c.parent_id = none)).flatMap
        (fun c => subtreeComments xs xs.length c.id)).map Comment.id).Nodup := by
  rw [List.map_flatMap, List.nodup_flatMap]
  constructor
  · intro r hr
    obtain ⟨hrx, hrp, hr1⟩ := roots_reach hr
    exact subtreeComments_id_nodup hN xs.length 1 r.id hr1
  · refine List.Pairwise.imp_of_mem ?_ (roots_nodup hN)
    intro a b ha hb hab x hxa hxb
    obtain ⟨haX, haP, hra⟩ := roots_reach ha
    obtain ⟨hbX, hbP, hrb⟩ := roots_reach hb
    obtain ⟨w₁, hw₁, rfl⟩ := List.mem_map.mp hxa
    obtain ⟨w₂, hw₂, hid₂⟩ := List.mem_map.mp hxb
    have h1 := (subtreeComments_facts hN xs.length a.id 1 hra w₁ hw₁).2.1
    have h2 := (subtreeComments_facts hN xs.length b.id 1 hrb w₂ hw₂).2.1
    rw [hid₂] at h2
    exact hab (id_inj_of_nodup hN haX hbX
      (DescId_unique_ancestor hN h1 h2 hra hrb))

/-- Every element of the flattened built forest is a member of the flat
list. -/
theorem flattenBuild_subset {xs : List Comment}
    (hN : (xs.map Comment.id).Nodup) :
    ∀ w ∈ (xs.filter (fun c => c.parent_id = none)).flatMap
      (fun c => subtreeComments xs xs.length c.id), w ∈ xs := by
  intro w hw
  rw [List.mem_flatMap] at hw
  obtain ⟨r, hr, hwr⟩ := hw
  obtain ⟨hrx, hrp, hr1⟩ := roots_reach hr
  exact (subtreeComments_facts hN xs.length r.id 1 hr1 w hwr).1

/-- Every reachable comment occurs in the flattened built forest. -/
theorem mem_flattenBuild_of_reach {xs : List Comment}
    (hN : (xs.map Comment.id).Nodup) {c : Comment} (hc : c ∈ xs)
    {n : Nat} (hr : ReachD xs n c.id) :
    c ∈ (xs.filter (fun d => d.parent_id = none)).flatMap
      (fun d => subtreeComments xs xs.length d.id) := by
  cases hp : c.parent_id with
  | none =>
    have hmem : c ∈ xs.filter (fun d => d.parent_id = none) :=
      List.mem_filter.mpr ⟨hc, by simp [hp]⟩
    rw [← flattenBuild_filter_none hN] at hmem
    exact List.mem_of_mem_filter hmem
  | some j =>
    obtain ⟨c', hc', hid', hcase⟩ := ReachD_inv hr
    obtain rfl := id_inj_of_nodup hN hc' hc hid'
    rcases hcase with ⟨hpn, _⟩ | ⟨j', m, hpj, hnm, hrj⟩
    · rw [hp] at hpn; cases hpn
    · rw [hp] at hpj
      obtain rfl := Option.some.inj hpj
      have hmem : c' ∈ childData xs j := mem_childData.mpr ⟨hc, hp⟩
      rw [← flattenBuild_filter_parent hN hrj] at hmem
      exact List.mem_of_mem_filter hmem

-- ============================================================================
-- C4 — assembling the round-trip
-- ============================================================================

/-- A reachable subtree's comments follow the spec's pre-order visit. -/
theorem subtreeComments_eq_visit {xs : List Comment}
    (hN : (xs.map Comment.id).Nodup) :
    ∀ (fuel : Nat) (d : Comment), d ∈ xs →
      subtreeComments xs fuel d.id = preorderVisitSpec xs fuel d := by
  intro fuel
  induction fuel with
  | zero =>
    intro d hd
    rw [subtreeComments_zero, dataOf_eq xs hN d hd]
    rfl
  | succ f ih =>
    intro d hd
    rw [subtreeComments_succ, dataOf_eq xs hN d hd]
    show _ :: _ = _ :: _
    congr 1
    exact flatMap_congr_mem (fun e he => ih e (mem_childData.mp he).1)

/-- C4 part 1 as a standalone statement: flatten after build is the
spec's pre-order traversal of the reachable subset. -/
theorem flatten_build_eq_preorderSpec {xs : List Comment}
    (hN : (xs.map Comment.id).Nodup) :
    (flattenCommentTree (buildCommentTree xs)).map (fun t => t.comment) =
      preorderReachableSpec xs := by
  rw [flatten_buildCommentTree]
  unfold preorderReachableSpec
  exact flatMap_congr_mem (fun r hr =>
    subtreeComments_eq_visit hN xs.length r (roots_reach hr).1)

/-- C4 orphan exclusion: every node of the built forest is a root or a
child of a present comment. -/
theorem flatten_build_no_orphans {xs : List Comment}
    (hN : (xs.map Comment.id).Nodup) :
    ∀ t ∈ flattenCommentTree (buildCommentTree xs),
      t.comment.parent_id = none ∨
        ∃ par ∈ xs, t.comment.parent_id = some par.id := by
  intro t ht
  have hw : t.comment ∈
      (flattenCommentTree (buildCommentTree xs)).map (fun t => t.comment) :=
    List.mem_map_of_mem _ ht
  rw [flatten_buildCommentTree, List.mem_flatMap] at hw
  obtain ⟨r, hr, hwr⟩ := hw
  obtain ⟨hrx, hrp, hr1⟩ := roots_reach hr
  rcases (subtreeComments_facts hN xs.length r.id 1 hr1 _ hwr).2.2 with
    heq | ⟨j, hdescj, hpar, _⟩
  · rw [heq, dataOf_eq xs hN r hrx]
    exact Or.inl hrp
  · obtain ⟨m, hm, hrj⟩ := DescId_reach hdescj hr1
    obtain ⟨c, hc, hcid⟩ := ReachD_exists_comment hrj
    exact Or.inr ⟨c, hc, by rw [hpar, hcid]⟩

/-- On reachable ids the map entries of the flattened forest and of the
original list agree. -/
theorem dataOf_flattenBuild {xs : List Comment}
    (hN : (xs.map Comment.id).Nodup) {n : Nat} {i : String}
    (hr : ReachD xs n i) :
    dataOf ((xs.filter (fun c => c.parent_id = none)).flatMap
        (fun c => subtreeComments xs xs.length c.id)) i = dataOf xs i := by
  obtain ⟨c, hc, rfl⟩ := ReachD_exists_comment hr
  rw [dataOf_eq xs hN c hc,
    dataOf_eq _ (flattenBuild_id_nodup hN) c
      (mem_flattenBuild_of_reach hN hc hr)]

/-- On reachable ids, building a node from the flattened forest agrees
with building it from the original list. -/
theorem buildNodeF_congr_flatten {xs : List Comment}
    (hN : (xs.map Comment.id).Nodup) :
    ∀ (fuel n : Nat) (i : String), ReachD xs n i →
      buildNodeF ((xs.filter (fun c => c.parent_id = none)).flatMap
          (fun c => subtreeComments xs xs.length c.id)) fuel i =
        buildNodeF xs fuel i := by
  intro fuel
  induction fuel with
  | zero =>
    intro n i hr
    show CommentWithDepth.node _ _ _ = CommentWithDepth.node _ _ _
    rw [dataOf_flattenBuild hN hr]
  | succ f ih =>
    intro n i hr
    show CommentWithDepth.node _ _ _ = CommentWithDepth.node _ _ _
    rw [dataOf_flattenBuild hN hr,
      show childData ((xs.filter (fun c => c.parent_id = none)).flatMap
          (fun c => subtreeComments xs xs.length c.id)) i =
        childData xs i from flattenBuild_filter_parent hN hr]
    congr 1
    refine List.map_congr_left (fun d hd => ?_)
    obtain ⟨hdx, hdp⟩ := mem_childData.mp hd
    exact ih (n + 1) d.id (ReachD.child d i n hdx hdp hr)

/-- C4 part 2 as a standalone statement: rebuilding from the flattened
forest reproduces the built forest. -/
theorem build_flatten_build {xs : List Comment}
    (hN : (xs.map Comment.id).Nodup) :
    buildCommentTree
        ((flattenCommentTree (buildCommentTree xs)).map (fun t => t.comment)) =
      buildCommentTree xs := by
  have hYnodup := flattenBuild_id_nodup hN
  have hYX : ((xs.filter (fun c => c.parent_id = none)).flatMap
      (fun c => subtreeComments xs xs.length c.id)).length ≤ xs.length :=
    ((List.Nodup.of_map Comment.id hYnodup).subperm
      (flattenBuild_subset hN)).length_le
  have hRy : ∀ m j, ReachD xs m j →
      m ≤ ((xs.filter (fun c => c.parent_id = none)).flatMap
        (fun c => subtreeComments xs xs.length c.id)).length := by
    intro m j hj
    have hcard := ReachD_le_card hN
      ((((xs.filter (fun c => c.parent_id = none)).flatMap
        (fun c => subtreeComments xs xs.length c.id)).map
          Comment.id).toFinset)
      (fun m' j' hj' => by
        obtain ⟨c, hc, rfl⟩ := ReachD_exists_comment hj'
        exact List.mem_toFinset.mpr (List.mem_map_of_mem Comment.id
          (mem_flattenBuild_of_reach hN hc hj'))) hj
    calc m ≤ _ := hcard
      _ ≤ _ := List.toFinset_card_le _
      _ = _ := List.length_map _ _
  rw [flatten_buildCommentTree]
  unfold buildCommentTree
  rw [flattenBuild_filter_none hN]
  refine List.map_congr_left (fun r hr => ?_)
  obtain ⟨hrx, hrp, hr1⟩ := roots_reach hr
  rw [buildNodeF_congr_flatten hN _ 1 r.id hr1]
  exact buildNodeF_stable _ hRy _ _ 1 r.id hr1 (by omega) (by omega)

/-- C4: for a flat comment list with pairwise-distinct ids (comment ids
are unique in the database), `flattenCommentTree (buildCommentTree xs)`
is the pre-order traversal of `xs`'s reachable subset — each node before
its children, children in their stored order, orphans excluded — and
applying `buildCommentTree` to the flattened result reproduces the
original nesting. -/
theorem tree_flat_roundtrip (xs : List Comment)
    (hN : (xs.map Comment.id).Nodup) :
    ((flattenCommentTree (buildCommentTree xs)).map (fun t => t.comment) =
      preorderReachableSpec xs) ∧
    (∀ t ∈ flattenCommentTree (buildCommentTree xs),
      t.comment.parent_id = none ∨
        ∃ par ∈ xs, t.comment.parent_id = some par.id) ∧
    buildCommentTree
        ((flattenCommentTree (buildCommentTree xs)).map
          (fun t => t.comment)) =
      buildCommentTree xs :=
  ⟨flatten_build_eq_preorderSpec hN, flatten_build_no_orphans hN,
   build_flatten_build hN⟩

/-- C4 witness: the round-trip at the concrete demo thread (two roots,
nested children, one orphan). -/
theorem tree_flat_roundtrip_witness :
    ((treeDemoComments.map Comment.id).Nodup) ∧
    (((flattenCommentTree (buildCommentTree treeDemoComments)).map
        (fun t => t.comment) = preorderReachableSpec treeDemoComments) ∧
    (∀ t ∈ flattenCommentTree (buildCommentTree treeDemoComments),
      t.comment.parent_id = none ∨
        ∃ par ∈ treeDemoComments, t.comment.parent_id = some par.id) ∧
    buildCommentTree
        ((flattenCommentTree (buildCommentTree treeDemoComments)).map
          (fun t => t.comment)) =
      buildCommentTree treeDemoComments) :=
  ⟨by decide, tree_flat_roundtrip treeDemoComments (by decide)⟩
